import Mathlib

/-!
Verification of the first-order-logic resolution core of this repository.

The development shallowly embeds three source modules:

* `FOL` — `First_Order_Logic.py`: flat terms (variables and constants),
  predicates, literals, clauses as `frozenset`s of literals, the chained
  substitution `apply_subst_term`, the unifier `unify_terms`/`unify_preds`,
  the binary-resolution rule `resolve`, and the saturation loop
  `fol_resolution`.
* `UA` — `Unification_Algorithm.py`: Robinson unification with occurs-check
  over variables, constants and compound (function) terms.
* `PyU` — `Unification.py`: the string/tuple unifier that mutates the
  caller's substitution dictionary in place.

The Python functions recurse without a structural bound (substitution chains
are followed by unbounded recursion), so every recursive operation is embedded
with an explicit fuel parameter: a result of `none` means the source would
not return (in CPython, a `RecursionError`), and `some r` means the source
returns `r`.  All fuel-indexed functions are monotone in the fuel, so
"the source returns `r`" is rendered as "for some fuel the embedding returns
`some r`".  Python dictionaries are modelled as insertion-ordered association
lists with unique keys, and Python `set`s/`frozenset`s of clauses are
modelled as insertion-ordered duplicate-free lists; frozensets of literals
are kept in a canonical sorted duplicate-free form so that structural list
equality coincides with Python's set equality.
-/

namespace FOL

/-- Terms of `First_Order_Logic.py`: `Variable(name)` or `Constant(name)`. -/
inductive FTerm where
  | var : String → FTerm
  | const : String → FTerm
deriving Repr, DecidableEq

/-- `Predicate = namedtuple("Predicate", ["name", "args"])`. -/
structure PredF where
  name : String
  args : List FTerm
deriving Repr, DecidableEq

/-- `Literal = namedtuple("Literal", ["pred", "neg"])`. -/
structure LitF where
  pred : PredF
  neg : Bool
deriving Repr, DecidableEq

/-- A Python dict mapping variable names to terms (insertion-ordered). -/
abbrev SubstF := List (String × FTerm)

/-- Dictionary lookup: `subst[name]` / `name in subst`. -/
def lookupF : SubstF → String → Option FTerm
  | [], _ => none
  | (y, t) :: rest, x => if y = x then some t else lookupF rest x

/-- Dictionary store `d[x] = t`: update in place if the key exists,
append otherwise (Python dicts preserve insertion order). -/
def pyInsertF : SubstF → String → FTerm → SubstF
  | [], x, t => [(x, t)]
  | (y, u) :: rest, x, t =>
    if y = x then (y, t) :: rest else (y, u) :: pyInsertF rest x t

/-- `apply_subst_term(subst, t)`: follow the binding chain until the term is
a constant or an unbound variable.  The source recurses unboundedly; `none`
means the chain does not terminate. -/
def applyT : Nat → SubstF → FTerm → Option FTerm
  | 0, _, _ => none
  | n + 1, σ, .var x =>
    match lookupF σ x with
    | some u => applyT n σ u
    | none => some (.var x)
  | _ + 1, _, .const c => some (.const c)

/-- The argument list comprehension of `apply_subst_pred`: apply the
substitution to every argument in order; the first non-terminating argument
makes the whole call non-terminating. -/
def applyArgsT : Nat → SubstF → List FTerm → Option (List FTerm)
  | _, _, [] => some []
  | n, σ, t :: ts =>
    match applyT n σ t with
    | none => none
    | some r =>
      match applyArgsT n σ ts with
      | none => none
      | some rs => some (r :: rs)

/-- `apply_subst_pred(subst, p)`: apply the substitution to every argument. -/
def applyPredF (n : Nat) (σ : SubstF) (p : PredF) : Option PredF :=
  match applyArgsT n σ p.args with
  | none => none
  | some as => some ⟨p.name, as⟩

/-- `apply_subst_lit(subst, l)`. -/
def applyLitF (n : Nat) (σ : SubstF) (l : LitF) : Option LitF :=
  match applyPredF n σ l.pred with
  | none => none
  | some p => some ⟨p, l.neg⟩

/-- The `new_lits` construction loop of `resolve`: apply the unifier to the
retained literals in order, crashing on the first non-terminating
application. -/
def applyLitsF : Nat → SubstF → List LitF → Option (List LitF)
  | _, _, [] => some []
  | n, σ, l :: ls =>
    match applyLitF n σ l with
    | none => none
    | some r =>
      match applyLitsF n σ ls with
      | none => none
      | some rs => some (r :: rs)

/-- `unify_terms(t1, t2, subst)` of `First_Order_Logic.py` (no occurs-check):
dereference bound variables by recursion, then bind an unbound variable to the
other side, or compare constants.  Outer `none` is fuel exhaustion (the
source's unbounded recursion), inner `none` is the source's `None` (Fail). -/
def unifyTermsF : Nat → FTerm → FTerm → SubstF → Option (Option SubstF)
  | 0, _, _, _ => none
  | n + 1, t1, t2, σ =>
    match t1, t2 with
    | .var x, _ =>
      match lookupF σ x with
      | some v => unifyTermsF n v t2 σ
      | none =>
        match t2 with
        | .var y =>
          match lookupF σ y with
          | some w => unifyTermsF n t1 w σ
          | none => some (some (pyInsertF σ x t2))
        | _ => some (some (pyInsertF σ x t2))
    | _, .var y =>
      match lookupF σ y with
      | some w => unifyTermsF n t1 w σ
      | none => some (some (pyInsertF σ y t1))
    | .const a, .const b => if a = b then some (some σ) else some none

/-- The argument loop of `unify_preds`: thread the substitution through the
zipped argument pairs, short-circuiting on failure. -/
def unifyArgsF : Nat → List (FTerm × FTerm) → SubstF → Option (Option SubstF)
  | 0, _, _ => none
  | _ + 1, [], σ => some (some σ)
  | n + 1, (a, b) :: rest, σ =>
    match unifyTermsF n a b σ with
    | none => none
    | some none => some none
    | some (some σ2) => unifyArgsF n rest σ2

/-- `unify_preds(p1, p2, subst)`: fail on name or arity mismatch, otherwise
unify the argument pairs left to right. -/
def unifyPredsF (n : Nat) (p1 p2 : PredF) (σ : SubstF) : Option (Option SubstF) :=
  if p1.name = p2.name ∧ p1.args.length = p2.args.length then
    unifyArgsF n (p1.args.zip p2.args) σ
  else some none

/-- A clause (`frozenset` of literals), kept as a canonical sorted
duplicate-free list so that list equality is Python's frozenset equality. -/
abbrev Clause := List LitF

/-- Injective string key of a term, used only to order literals inside the
canonical form of a clause. -/
def argKey : FTerm → String
  | .var x => "?" ++ x ++ ";"
  | .const c => "!" ++ c ++ ";"

/-- Injective string key of a literal, used only for the canonical order. -/
def litKey (l : LitF) : String :=
  (if l.neg then "~" else "&") ++ l.pred.name ++ "(" ++
    String.join (l.pred.args.map argKey) ++ ")"

/-- Lexicographic comparison of character lists (kernel-computable). -/
def charsLe : List Char → List Char → Bool
  | [], _ => true
  | _ :: _, [] => false
  | c :: cs, d :: ds =>
    if c.val < d.val then true else if d.val < c.val then false else charsLe cs ds

/-- Lexicographic comparison of strings (kernel-computable). -/
def strLe (a b : String) : Bool := charsLe a.toList b.toList

/-- Insert a literal into a key-sorted list. -/
def insLit (a : LitF) : List LitF → List LitF
  | [] => [a]
  | b :: bs => if strLe (litKey a) (litKey b) then a :: b :: bs else b :: insLit a bs

/-- Sort literals by key (insertion sort). -/
def sortLits : List LitF → List LitF
  | [] => []
  | a :: as => insLit a (sortLits as)

/-- Remove duplicates keeping first occurrences (the source's
`if a not in cleaned: cleaned.append(a)`). -/
def dedupLits : List LitF → List LitF → List LitF
  | [], _ => []
  | a :: as, seen => if a ∈ seen then dedupLits as seen else a :: dedupLits as (a :: seen)

/-- Canonical clause value of a list of literals. -/
def canonClause (ls : List LitF) : Clause := sortLits (dedupLits ls [])

/-- The per-argument comparison of the tautology check inside `resolve`:
`(is_const(x) and is_const(y) and x.name == y.name) or
 (is_var(x) and is_var(y) and x.name == y.name)`. -/
def argEqB : FTerm × FTerm → Bool
  | (.const cx, .const cy) => cx == cy
  | (.var vx, .var vy) => vx == vy
  | _ => false

/-- The source's syntactic complementarity test inside `resolve`: same
predicate name, opposite polarity, same arity, and argument lists that agree
pairwise as constants-with-equal-names or variables-with-equal-names. -/
def tautPairB (a b : LitF) : Bool :=
  a.pred.name == b.pred.name && a.neg != b.neg &&
    a.pred.args.length == b.pred.args.length &&
    ((a.pred.args.zip b.pred.args).all argEqB)

/-- One candidate literal pair inside `resolve`: returns `some none` when the
pair yields no resolvent (no complementarity, unification Fails, or the
resolvent is a tautology and is discarded), `some (some c)` for a resolvent,
and `none` when the source would not return. -/
def resolvePairF (F : Nat) (c1 c2 : Clause) (l1 l2 : LitF) : Option (Option Clause) :=
  if l1.pred.name = l2.pred.name ∧ l1.neg ≠ l2.neg ∧
      l1.pred.args.length = l2.pred.args.length then
    match unifyPredsF F l1.pred l2.pred [] with
    | none => none
    | some none => some none
    | some (some θ) =>
      match applyLitsF F θ ((c1.filter (· ≠ l1)) ++ (c2.filter (· ≠ l2))) with
      | none => none
      | some newLits =>
        if newLits.any (fun a => newLits.any (fun b => tautPairB a b)) then some none
        else some (some (canonClause newLits))
  else some none

/-- The literal-pair loop of `resolve`, collecting resolvents in order. -/
def collectResolvents (F : Nat) (c1 c2 : Clause) :
    List (LitF × LitF) → Option (List Clause)
  | [] => some []
  | (l1, l2) :: rest =>
    match resolvePairF F c1 c2 l1 l2 with
    | none => none
    | some r =>
      match collectResolvents F c1 c2 rest with
      | none => none
      | some rs => some (match r with | some c => c :: rs | none => rs)

/-- `resolve(clause1, clause2)`: all resolvents over complementary literal
pairs, with duplicate removal and tautology elimination. -/
def resolveF (F : Nat) (c1 c2 : Clause) : Option (List Clause) :=
  collectResolvents F c1 c2 (c1.flatMap fun l1 => c2.map fun l2 => (l1, l2))

/-- The mutable state of `fol_resolution`: the clause store, the pending
`new` set, the processed-pairs set, and the FIFO agenda. -/
structure StateF where
  clauses : List Clause
  newC : List Clause
  checked : List (Clause × Clause)
  agenda : List (Clause × Clause)
deriving Repr, DecidableEq

/-- `set.add`: append if not already present. -/
def addIfAbsent (cs : List Clause) (c : Clause) : List Clause :=
  if c ∈ cs then cs else cs ++ [c]

/-- `itertools.combinations(enumerate(clause_list), 2)` pair order. -/
def pairsOf : List Clause → List (Clause × Clause)
  | [] => []
  | c :: rest => (rest.map (fun d => (c, d))) ++ pairsOf rest

/-- The `for r in resolvents` body of `fol_resolution`: `none` signals that
the empty clause was derived (the source returns `True` at that point);
otherwise the updated `new` set and agenda. -/
def processRs (clauses : List Clause) :
    List Clause → List Clause → List (Clause × Clause) →
    Option (List Clause × List (Clause × Clause))
  | [], newC, agenda => some (newC, agenda)
  | r :: rs, newC, agenda =>
    if r = ([] : Clause) then none
    else if r ∈ clauses ∨ r ∈ newC then processRs clauses rs newC agenda
    else
      let newC2 := newC ++ [r]
      processRs clauses rs newC2
        (agenda ++ clauses.map (fun c => (r, c)) ++ newC2.map (fun c => (r, c)))

/-- The generation boundary of `fol_resolution`: fold `new` into the store
and re-enqueue every not-yet-checked pair of the merged store. -/
def refill (clauses newC : List Clause) (checked : List (Clause × Clause)) : StateF :=
  let clauses2 := newC.foldl addIfAbsent clauses
  { clauses := clauses2, newC := [], checked := checked,
    agenda := (pairsOf clauses2).filter (fun p => decide (p ∉ checked)) }

/-- Add one consumed iteration to a loop result (the source's
`iterations += 1`). -/
def tick (p : Option Bool × Nat) : Option Bool × Nat := (p.1, p.2 + 1)

/-- The state entering the next loop iteration after processing a pair:
either the generation boundary (`if not agenda and new:` — merge and
requeue) or the plainly updated state. -/
def folNext (st : StateF) (c1 c2 : Clause) (newC2 : List Clause)
    (agenda2 : List (Clause × Clause)) : StateF :=
  if agenda2 = [] ∧ newC2 ≠ [] then
    refill st.clauses newC2 (st.checked ++ [(c1, c2)])
  else
    { clauses := st.clauses, newC := newC2,
      checked := st.checked ++ [(c1, c2)], agenda := agenda2 }

/-- The `while agenda and iterations < max_iters` loop of `fol_resolution`.
The first `Nat` argument is the unused part of the step budget
(`max_iters - iterations`), so the loop condition `iterations < max_iters`
is "the budget is not yet zero"; the `iterations += 1` executed immediately
after every pop — before the already-processed check — is rendered by adding
one (`tick`) to the count of the recursive call on every pop, duplicates
included.  Returns the verdict (`some true` = empty clause derived,
`some false` = not proved within the budget, `none` = the source would crash
inside `resolve`) together with the number of iterations consumed. -/
def folLoop (F : Nat) : Nat → StateF → Option Bool × Nat
  | 0, _ => (some false, 0)
  | rem + 1, st =>
    match st.agenda with
    | [] => (some false, 0)
    | (c1, c2) :: rest =>
      if (c1, c2) ∈ st.checked then
        tick (folLoop F rem { st with agenda := rest })
      else
        match resolveF F c1 c2 with
        | none => (none, 1)
        | some rs =>
          match processRs st.clauses rs st.newC rest with
          | none => (some true, 1)
          | some (newC2, agenda2) =>
            tick (folLoop F rem (folNext st c1 c2 newC2 agenda2))

/-- `fol_resolution(kb_clauses, query_clause, max_iters)`: seed the store with
the KB and the negated query, enqueue all pairs, and run the loop.  `F` is
the fuel for the embedded substitution/unification recursion. -/
def folResolutionF (F : Nat) (kb : List Clause) (q : PredF) (maxIters : Nat) :
    Option Bool :=
  let clauses0 := kb.foldl addIfAbsent []
  let clauses1 := addIfAbsent clauses0 (canonClause [⟨q, true⟩])
  (folLoop F maxIters
    { clauses := clauses1, newC := [], checked := [], agenda := pairsOf clauses1 }).1

/-- `build_example_kb()`: the grandparent knowledge base. -/
def exampleKB : List Clause :=
  [ canonClause [⟨⟨"parent", [.const "alice", .const "bob"]⟩, false⟩],
    canonClause [⟨⟨"parent", [.const "bob", .const "charlie"]⟩, false⟩],
    canonClause [⟨⟨"parent", [.var "x", .var "y"]⟩, true⟩,
                 ⟨⟨"parent", [.var "y", .var "z"]⟩, true⟩,
                 ⟨⟨"grandparent", [.var "x", .var "z"]⟩, false⟩] ]

/-- Variables occurring in a flat term. -/
def varsF : FTerm → List String
  | .var x => [x]
  | .const _ => []

/-- `apply_subst_term(σ, t)` does not terminate (for no recursion depth does
the chain resolve). -/
def applyTDiverges (σ : SubstF) (t : FTerm) : Prop := ∀ m, applyT m σ t = none

/-- `apply_subst_pred(σ, p)` does not terminate. -/
def applyPredDiverges (σ : SubstF) (p : PredF) : Prop := ∀ m, applyPredF m σ p = none

/-- One substitution extends another: every binding of the first is a
binding of the second. -/
def extF (σ τ : SubstF) : Prop :=
  ∀ x v, lookupF σ x = some v → lookupF τ x = some v

/-- Under every extension of `σ`, whenever applying the substitution to both
terms terminates, the results agree. -/
def CondEqF (σ : SubstF) (a b : FTerm) : Prop :=
  ∀ τ, extF σ τ → ∀ m r k s, applyT m τ a = some r → applyT k τ b = some s → r = s

/-- `First_Order_Logic.unify_terms` with the caller's dictionary threaded as
explicit state: every write in the source targets a copy (`subst.copy()`),
never the caller's object, so the second component — the caller's dictionary
when the call returns — is the unchanged input. -/
def unifyTermsF_mut (n : Nat) (t1 t2 : FTerm) (σ : SubstF) :
    Option (Option SubstF) × SubstF :=
  (unifyTermsF n t1 t2 σ, σ)

/-- `unify_preds` with the caller's dictionary threaded as explicit state:
the source copies it (`subst.copy()`) before threading it through
`unify_terms`. -/
def unifyPredsF_mut (n : Nat) (p1 p2 : PredF) (σ : SubstF) :
    Option (Option SubstF) × SubstF :=
  (unifyPredsF n p1 p2 σ, σ)

end FOL


namespace UA

/-- Terms of `Unification_Algorithm.py`: `Var(name)`, `Const(name)`, and the
compound `Func(name, args)`. -/
inductive Term where
  | var : String → Term
  | const : String → Term
  | func : String → List Term → Term
deriving Repr

mutual

def decEqT : (a b : Term) → Decidable (a = b)
  | .var x, .var y =>
    match String.decEq x y with
    | .isTrue h => .isTrue (by rw [h])
    | .isFalse h => .isFalse (by intro hc; cases hc; exact h rfl)
  | .var _, .const _ => .isFalse (by intro hc; cases hc)
  | .var _, .func _ _ => .isFalse (by intro hc; cases hc)
  | .const _, .var _ => .isFalse (by intro hc; cases hc)
  | .const x, .const y =>
    match String.decEq x y with
    | .isTrue h => .isTrue (by rw [h])
    | .isFalse h => .isFalse (by intro hc; cases hc; exact h rfl)
  | .const _, .func _ _ => .isFalse (by intro hc; cases hc)
  | .func _ _, .var _ => .isFalse (by intro hc; cases hc)
  | .func _ _, .const _ => .isFalse (by intro hc; cases hc)
  | .func f as, .func g bs =>
    match String.decEq f g, decEqLT as bs with
    | .isTrue h1, .isTrue h2 => .isTrue (by rw [h1, h2])
    | .isFalse h1, _ => .isFalse (by intro hc; cases hc; exact h1 rfl)
    | _, .isFalse h2 => .isFalse (by intro hc; cases hc; exact h2 rfl)

def decEqLT : (as bs : List Term) → Decidable (as = bs)
  | [], [] => .isTrue rfl
  | [], _ :: _ => .isFalse (by intro hc; cases hc)
  | _ :: _, [] => .isFalse (by intro hc; cases hc)
  | a :: as, b :: bs =>
    match decEqT a b, decEqLT as bs with
    | .isTrue h1, .isTrue h2 => .isTrue (by rw [h1, h2])
    | .isFalse h1, _ => .isFalse (by intro hc; cases hc; exact h1 rfl)
    | _, .isFalse h2 => .isFalse (by intro hc; cases hc; exact h2 rfl)

end

instance : DecidableEq Term := decEqT

/-- A Python dict mapping variable names to terms (insertion-ordered). -/
abbrev Subst := List (String × Term)

/-- Dictionary lookup: `subst[name]` / `name in subst`. -/
def lookup : Subst → String → Option Term
  | [], _ => none
  | (y, t) :: rest, x => if y = x then some t else lookup rest x

/-- Dictionary store `d[x] = t`. -/
def pyInsert : Subst → String → Term → Subst
  | [], x, t => [(x, t)]
  | (y, u) :: rest, x, t =>
    if y = x then (y, t) :: rest else (y, u) :: pyInsert rest x t

mutual

/-- Variables occurring in a term. -/
def vars : Term → List String
  | .var x => [x]
  | .const _ => []
  | .func _ args => varsList args

/-- Variables occurring in a list of terms. -/
def varsList : List Term → List String
  | [] => []
  | t :: ts => vars t ++ varsList ts

end

mutual

/-- `apply_subst(subst, term)` of `Unification_Algorithm.py`: fully
dereference a variable chain, or rebuild a compound with all arguments
substituted.  Fuel-indexed: `none` means unbounded recursion in the
source. -/
def applySubst : Nat → Subst → Term → Option Term
  | 0, _, _ => none
  | n + 1, σ, .var x =>
    match lookup σ x with
    | some u => applySubst n σ u
    | none => some (.var x)
  | _ + 1, _, .const c => some (.const c)
  | n + 1, σ, .func f args =>
    match applyArgs n σ args with
    | none => none
    | some rs => some (.func f rs)

/-- `apply_subst` mapped over an argument list (the generator inside the
`Func` case). -/
def applyArgs : Nat → Subst → List Term → Option (List Term)
  | 0, _, _ => none
  | _ + 1, _, [] => some []
  | n + 1, σ, t :: ts =>
    match applySubst n σ t with
    | none => none
    | some r =>
      match applyArgs n σ ts with
      | none => none
      | some rs => some (r :: rs)

end

mutual

/-- `occurs_in(var, term, subst)`: apply the substitution to `term`, then
check whether the variable occurs anywhere inside. -/
def occursIn : Nat → String → Term → Subst → Option Bool
  | 0, _, _, _ => none
  | n + 1, x, t, σ =>
    match applySubst n σ t with
    | none => none
    | some t2 =>
      match t2 with
      | .var y => some (decide (y = x))
      | .const _ => some false
      | .func _ args => occursList n x args σ

/-- The short-circuiting `any(occurs_in(var, a, subst) for a in term.args)`. -/
def occursList : Nat → String → List Term → Subst → Option Bool
  | 0, _, _, _ => none
  | _ + 1, _, [], _ => some false
  | n + 1, x, t :: ts, σ =>
    match occursIn n x t σ with
    | none => none
    | some b => if b then some true else occursList n x ts σ

end

mutual

/-- `unify_terms(t1, t2, subst)` of `Unification_Algorithm.py` (Robinson with
occurs-check): dereference both terms under the substitution, then compare
constants, identical variables, bind a variable after the occurs-check, or
descend into compounds of equal name and arity.  Outer `none` is fuel
exhaustion, inner `none` is the source's `None` (Fail). -/
def unifyTerms : Nat → Term → Term → Subst → Option (Option Subst)
  | 0, _, _, _ => none
  | n + 1, t1, t2, σ =>
    match applySubst n σ t1 with
    | none => none
    | some u1 =>
      match applySubst n σ t2 with
      | none => none
      | some u2 =>
        match u1, u2 with
        | .const a, .const b => if a = b then some (some σ) else some none
        | .var a, .var b =>
          if a = b then some (some σ)
          else
            match occursIn n a (.var b) σ with
            | none => none
            | some true => some none
            | some false => some (some (pyInsert σ a (.var b)))
        | .var a, u =>
          match occursIn n a u σ with
          | none => none
          | some true => some none
          | some false => some (some (pyInsert σ a u))
        | u, .var b =>
          match occursIn n b u σ with
          | none => none
          | some true => some none
          | some false => some (some (pyInsert σ b u))
        | .func f as, .func g bs =>
          if f = g ∧ as.length = bs.length then unifyList n as bs σ
          else some none
        | _, _ => some none

/-- The argument loop of the `Func`/`Func` case, threading the substitution
left to right and short-circuiting on failure. -/
def unifyList : Nat → List Term → List Term → Subst → Option (Option Subst)
  | 0, _, _, _ => none
  | _ + 1, [], [], σ => some (some σ)
  | n + 1, a :: as, b :: bs, σ =>
    match unifyTerms n a b σ with
    | none => none
    | some none => some none
    | some (some σ2) => unifyList n as bs σ2
  | _ + 1, _, _, _ => some none

end

/-- `unify(t1, t2)`: the wrapper starting from the empty substitution. -/
def unify (n : Nat) (t1 t2 : Term) : Option (Option Subst) :=
  unifyTerms n t1 t2 []

/-- One substitution extends another. -/
def ext (σ τ : Subst) : Prop :=
  ∀ x v, lookup σ x = some v → lookup τ x = some v

/-- The substitution is acyclic: some ranking of variable names strictly
decreases along every binding chain (from a bound variable to the bound
variables of its binding). -/
def WFS (σ : Subst) : Prop :=
  ∃ rk : String → Nat, ∀ x t, lookup σ x = some t →
    ∀ y ∈ vars t, (lookup σ y).isSome → rk y < rk x

/-- Both terms dereference under `τ` to a common result. -/
def UnifEq (τ : Subst) (a b : Term) : Prop :=
  ∃ m r, applySubst m τ a = some r ∧ applySubst m τ b = some r

/-- Both argument lists dereference under `τ` to a common result. -/
def UnifEqL (τ : Subst) (as bs : List Term) : Prop :=
  ∃ m rs, applyArgs m τ as = some rs ∧ applyArgs m τ bs = some rs

/-- `Unification_Algorithm.unify_terms` with the caller's dictionary
threaded as explicit state: every write in the source targets a copy
(`dict(subst)`), never the caller's object. -/
def unifyTerms_mut (n : Nat) (t1 t2 : Term) (σ : Subst) :
    Option (Option Subst) × Subst :=
  (unifyTerms n t1 t2 σ, σ)

end UA

namespace PyU

/-- Values handled by `Unification.py`: Python strings (variables are
lowercase strings, other strings are constants) and the `(name, [args])`
tuples built by `make_predicate`.  The in-place `apply_substitution` can
overwrite a dictionary value with a plain string, which is again a `str`
value. -/
inductive PyTerm where
  | str : String → PyTerm
  | pred : String → List PyTerm → PyTerm
deriving Repr

mutual

def decEqP : (a b : PyTerm) → Decidable (a = b)
  | .str x, .str y =>
    match String.decEq x y with
    | .isTrue h => .isTrue (by rw [h])
    | .isFalse h => .isFalse (by intro hc; cases hc; exact h rfl)
  | .str _, .pred _ _ => .isFalse (by intro hc; cases hc)
  | .pred _ _, .str _ => .isFalse (by intro hc; cases hc)
  | .pred f as, .pred g bs =>
    match String.decEq f g, decEqLP as bs with
    | .isTrue h1, .isTrue h2 => .isTrue (by rw [h1, h2])
    | .isFalse h1, _ => .isFalse (by intro hc; cases hc; exact h1 rfl)
    | _, .isFalse h2 => .isFalse (by intro hc; cases hc; exact h2 rfl)

def decEqLP : (as bs : List PyTerm) → Decidable (as = bs)
  | [], [] => .isTrue rfl
  | [], _ :: _ => .isFalse (by intro hc; cases hc)
  | _ :: _, [] => .isFalse (by intro hc; cases hc)
  | a :: as, b :: bs =>
    match decEqP a b, decEqLP as bs with
    | .isTrue h1, .isTrue h2 => .isTrue (by rw [h1, h2])
    | .isFalse h1, _ => .isFalse (by intro hc; cases hc; exact h1 rfl)
    | _, .isFalse h2 => .isFalse (by intro hc; cases hc; exact h2 rfl)

end

instance : DecidableEq PyTerm := decEqP

/-- The substitution dictionary `subs` (insertion-ordered Python dict). -/
abbrev PyDict := List (String × PyTerm)

/-- Dictionary lookup. -/
def dlookup : PyDict → String → Option PyTerm
  | [], _ => none
  | (y, t) :: rest, x => if y = x then some t else dlookup rest x

/-- Dictionary store `subs[x] = t` (update in place or append). -/
def dset : PyDict → String → PyTerm → PyDict
  | [], x, t => [(x, t)]
  | (y, u) :: rest, x, t =>
    if y = x then (y, t) :: rest else (y, u) :: dset rest x t

/-- Python `str.islower()` on the ASCII names used here: at least one
alphabetic character and no uppercase character. -/
def isPyLower (s : String) : Bool :=
  s.toList.any (fun c => c.isAlpha) && s.toList.all (fun c => !(c.isUpper))

/-- Python substring containment `p in s` for strings. -/
def isSubstr (p s : String) : Bool :=
  (s.toList.tails).any (fun t => p.toList.isPrefixOf t)

/-- The occurs-check `x in y` of `Unification.py`: substring containment
when `y` is a string; for a `(name, [args])` tuple, Python tuple membership
compares `x` against the two elements, and a string never equals the
argument list, so only the name comparison remains. -/
def pyIn (s : String) : PyTerm → Bool
  | .str t => isSubstr s t
  | .pred n _ => s == n

/-- Wrap a string in single quotes, as Python `repr` does. -/
def squote (s : String) : String :=
  String.singleton (Char.ofNat 39) ++ s ++ String.singleton (Char.ofNat 39)

mutual

/-- Python `repr` of a term value. -/
def pyRepr : PyTerm → String
  | .str s => squote s
  | .pred n args => "(" ++ squote n ++ ", [" ++ pyReprList args ++ "])"

/-- Python `repr` of a list body, comma-separated. -/
def pyReprList : List PyTerm → String
  | [] => ""
  | [t] => pyRepr t
  | t :: ts => pyRepr t ++ ", " ++ pyReprList ts

end

/-- Python `str()` of a term value (`str` of a string is the string itself;
`str` of a tuple is its `repr`). -/
def pyStr : PyTerm → String
  | .str s => s
  | .pred n args => pyRepr (.pred n args)

/-- `apply_substitution(subs)` of `Unification.py`: iterate over the (fixed)
key list; for each key `var` with its current value `val`, rewrite in place
every other entry whose stringified value contains `var` as a substring,
replacing the occurrence textually and storing the result as a plain
string. -/
def pyApplySubstitution (subs : PyDict) : PyDict :=
  let ks := subs.map (fun p => p.1)
  ks.foldl (fun d varName =>
    match dlookup d varName with
    | none => d
    | some val =>
      ks.foldl (fun d2 v =>
        match dlookup d2 v with
        | none => d2
        | some cur =>
          if isSubstr varName (pyStr cur) && decide (v ≠ varName) then
            dset d2 v (.str ((pyStr cur).replace varName (pyStr val)))
          else d2) d) subs

/-- `isinstance(x, str) and x.islower()`. -/
def isVarStr : PyTerm → Bool
  | .str s => isPyLower s
  | _ => false

/-- The name of a string term (only used under `isVarStr`). -/
def varNameOf : PyTerm → String
  | .str s => s
  | _ => ""

mutual

/-- `unify(x, y, subs)` of `Unification.py`, with the caller's dictionary
object threaded as explicit state: the source stores bindings with
`subs[x] = y` directly into the caller's dictionary (no copy) and then runs
the in-place `apply_substitution` on it.  The first component is the
success flag (Python returns the dict itself on success and `None` on
failure); the second is the state of the caller's dictionary object when
the call returns. -/
def pyUnify (x y : PyTerm) (subs : PyDict) : Bool × PyDict :=
  if x = y then (true, subs)
  else if isVarStr x then
    if pyIn (varNameOf x) y then (false, subs)
    else (true, pyApplySubstitution (dset subs (varNameOf x) y))
  else if isVarStr y then
    if pyIn (varNameOf y) x then (false, subs)
    else (true, pyApplySubstitution (dset subs (varNameOf y) x))
  else
    match x, y with
    | .pred n1 a1, .pred n2 a2 =>
      if n1 ≠ n2 ∨ a1.length ≠ a2.length then (false, subs)
      else pyUnifyList a1 a2 subs
    | _, _ => (false, subs)

/-- The `for a, b in zip(x[1], y[1])` loop of `unify`, threading the mutated
dictionary and stopping at the first failure (the caller keeps the
mutations made so far). -/
def pyUnifyList : List PyTerm → List PyTerm → PyDict → Bool × PyDict
  | [], _, subs => (true, subs)
  | _ :: _, [], subs => (true, subs)
  | a :: as, b :: bs, subs =>
    match pyUnify a b subs with
    | (true, subs2) => pyUnifyList as bs subs2
    | (false, subs2) => (false, subs2)

end

end PyU

namespace FOL

theorem lookupF_append_some :
    ∀ (σ Δ : SubstF) (x : String) (v : FTerm),
      lookupF σ x = some v → lookupF (σ ++ Δ) x = some v := by
  intro σ Δ x v h
  induction σ with
  | nil => simp [lookupF] at h
  | cons p rest ih =>
    obtain ⟨y, t⟩ := p
    by_cases hyx : y = x
    · simp [lookupF, hyx] at h ⊢; exact h
    · simp [lookupF, hyx] at h ⊢; exact ih h

theorem lookupF_append_of_none :
    ∀ (σ Δ : SubstF) (x : String),
      lookupF σ x = none → lookupF (σ ++ Δ) x = lookupF Δ x := by
  intro σ Δ x h
  induction σ with
  | nil => simp
  | cons p rest ih =>
    obtain ⟨y, t⟩ := p
    by_cases hyx : y = x
    · simp [lookupF, hyx] at h
    · simp [lookupF, hyx] at h ⊢; exact ih h

theorem extF_refl (σ : SubstF) : extF σ σ := fun _ _ h => h

theorem extF_trans {a b c : SubstF} (h1 : extF a b) (h2 : extF b c) : extF a c :=
  fun x v h => h2 x v (h1 x v h)

theorem extF_append (σ Δ : SubstF) : extF σ (σ ++ Δ) :=
  fun x v h => lookupF_append_some σ Δ x v h

theorem pyInsertF_fresh :
    ∀ (σ : SubstF) (x : String) (t : FTerm),
      lookupF σ x = none → pyInsertF σ x t = σ ++ [(x, t)] := by
  intro σ x t h
  induction σ with
  | nil => simp [pyInsertF]
  | cons p rest ih =>
    obtain ⟨y, u⟩ := p
    by_cases hyx : y = x
    · simp [lookupF, hyx] at h
    · simp [lookupF, hyx] at h
      simp [pyInsertF, hyx, ih h]

theorem applyT_mono :
    ∀ (m : Nat) (σ : SubstF) (t r : FTerm),
      applyT m σ t = some r → applyT (m + 1) σ t = some r := by
  intro m
  induction m with
  | zero => intro σ t r h; simp [applyT] at h
  | succ k ih =>
    intro σ t r h
    cases t with
    | var x =>
      simp only [applyT] at h ⊢
      cases hl : lookupF σ x with
      | some u => rw [hl] at h; simp only [hl]; exact ih σ u r h
      | none => rw [hl] at h; simpa [hl] using h
    | const c => simpa [applyT] using h

theorem applyT_mono_le :
    ∀ {m k : Nat} {σ : SubstF} {t r : FTerm},
      m ≤ k → applyT m σ t = some r → applyT k σ t = some r := by
  intro m k σ t r hle h
  induction hle with
  | refl => exact h
  | step _ ih => exact applyT_mono _ _ _ _ ih

theorem applyT_det {m k : Nat} {σ : SubstF} {t r s : FTerm}
    (h1 : applyT m σ t = some r) (h2 : applyT k σ t = some s) : r = s := by
  rcases Nat.le_total m k with hle | hle
  · have := applyT_mono_le hle h1
    rw [this] at h2; exact Option.some.inj h2
  · have := applyT_mono_le hle h2
    rw [this] at h1; exact (Option.some.inj h1).symm

theorem applyT_final :
    ∀ (m : Nat) (σ : SubstF) (t r : FTerm),
      applyT m σ t = some r → ∀ y ∈ varsF r, lookupF σ y = none := by
  intro m
  induction m with
  | zero => intro σ t r h; simp [applyT] at h
  | succ k ih =>
    intro σ t r h y hy
    cases t with
    | var x =>
      simp only [applyT] at h
      cases hl : lookupF σ x with
      | some u => rw [hl] at h; exact ih σ u r h y hy
      | none =>
        rw [hl] at h
        cases h
        simp [varsF] at hy
        subst hy; exact hl
    | const c =>
      simp only [applyT] at h
      cases h
      simp [varsF] at hy

theorem applyT_loop :
    ∀ (m : Nat) (σ : SubstF) (x : String),
      lookupF σ x = some (.var x) → applyT m σ (.var x) = none := by
  intro m
  induction m with
  | zero => intro σ x _; simp [applyT]
  | succ k ih => intro σ x h; simp only [applyT, h]; exact ih σ x h

theorem condEqF_lift {σ σ2 : SubstF} {a b : FTerm}
    (hx : extF σ σ2) (h : CondEqF σ a b) : CondEqF σ2 a b :=
  fun τ hτ => h τ (extF_trans hx hτ)

theorem unifyTermsF_cond :
    ∀ (n : Nat) (t1 t2 : FTerm) (σ σ2 : SubstF),
      unifyTermsF n t1 t2 σ = some (some σ2) → extF σ σ2 ∧ CondEqF σ2 t1 t2 := by
  intro n
  induction n with
  | zero => intro t1 t2 σ σ2 h; simp [unifyTermsF] at h
  | succ k ih =>
    intro t1 t2 σ σ2 h
    cases t1 with
    | var x =>
      cases hx : lookupF σ x with
      | some v =>
        simp only [unifyTermsF, hx] at h
        obtain ⟨hext, hce⟩ := ih v t2 σ σ2 h
        refine ⟨hext, ?_⟩
        intro τ hτ m r k2 s hr hs
        have hxv : lookupF τ x = some v := hτ x v (hext x v hx)
        cases m with
        | zero => simp [applyT] at hr
        | succ m2 =>
          simp only [applyT, hxv] at hr
          exact hce τ hτ m2 r k2 s hr hs
      | none =>
        cases t2 with
        | var y =>
          cases hy : lookupF σ y with
          | some w =>
            simp only [unifyTermsF, hx, hy] at h
            obtain ⟨hext, hce⟩ := ih (.var x) w σ σ2 h
            refine ⟨hext, ?_⟩
            intro τ hτ m r k2 s hr hs
            have hyw : lookupF τ y = some w := hτ y w (hext y w hy)
            cases k2 with
            | zero => simp [applyT] at hs
            | succ k3 =>
              simp only [applyT, hyw] at hs
              exact hce τ hτ m r k3 s hr hs
          | none =>
            simp only [unifyTermsF, hx, hy, Option.some.injEq] at h
            rw [pyInsertF_fresh σ x _ hx] at h
            subst h
            refine ⟨extF_append σ _, ?_⟩
            intro τ hτ m r k2 s hr hs
            have hx2 : lookupF (σ ++ [(x, FTerm.var y)]) x = some (.var y) := by
              rw [lookupF_append_of_none σ _ x hx]; simp [lookupF]
            have hxτ : lookupF τ x = some (.var y) := hτ x _ hx2
            cases m with
            | zero => simp [applyT] at hr
            | succ m2 =>
              simp only [applyT, hxτ] at hr
              exact applyT_det hr hs
        | const c2 =>
          simp only [unifyTermsF, hx, Option.some.injEq] at h
          rw [pyInsertF_fresh σ x _ hx] at h
          subst h
          refine ⟨extF_append σ _, ?_⟩
          intro τ hτ m r k2 s hr hs
          have hx2 : lookupF (σ ++ [(x, FTerm.const c2)]) x = some (.const c2) := by
            rw [lookupF_append_of_none σ _ x hx]; simp [lookupF]
          have hxτ : lookupF τ x = some (.const c2) := hτ x _ hx2
          cases m with
          | zero => simp [applyT] at hr
          | succ m2 =>
            simp only [applyT, hxτ] at hr
            exact applyT_det hr hs
    | const c1 =>
      cases t2 with
      | var y =>
        cases hy : lookupF σ y with
        | some w =>
          simp only [unifyTermsF, hy] at h
          obtain ⟨hext, hce⟩ := ih (.const c1) w σ σ2 h
          refine ⟨hext, ?_⟩
          intro τ hτ m r k2 s hr hs
          have hyw : lookupF τ y = some w := hτ y w (hext y w hy)
          cases k2 with
          | zero => simp [applyT] at hs
          | succ k3 =>
            simp only [applyT, hyw] at hs
            exact hce τ hτ m r k3 s hr hs
        | none =>
          simp only [unifyTermsF, hy, Option.some.injEq] at h
          rw [pyInsertF_fresh σ y _ hy] at h
          subst h
          refine ⟨extF_append σ _, ?_⟩
          intro τ hτ m r k2 s hr hs
          have hy2 : lookupF (σ ++ [(y, FTerm.const c1)]) y = some (.const c1) := by
            rw [lookupF_append_of_none σ _ y hy]; simp [lookupF]
          have hyτ : lookupF τ y = some (.const c1) := hτ y _ hy2
          cases k2 with
          | zero => simp [applyT] at hs
          | succ k3 =>
            simp only [applyT, hyτ] at hs
            exact applyT_det hr hs
      | const c2 =>
        by_cases hc : c1 = c2
        · subst hc
          simp only [unifyTermsF, eq_self_iff_true, if_true, Option.some.injEq] at h
          subst h
          refine ⟨extF_refl _, ?_⟩
          intro τ hτ m r k2 s hr hs
          cases m with
          | zero => simp [applyT] at hr
          | succ m2 =>
            cases k2 with
            | zero => simp [applyT] at hs
            | succ k3 =>
              simp only [applyT, Option.some.injEq] at hr hs
              rw [← hr, ← hs]
        · simp [unifyTermsF, hc] at h

theorem unifyArgsF_cond :
    ∀ (n : Nat) (pairs : List (FTerm × FTerm)) (σ σ2 : SubstF),
      unifyArgsF n pairs σ = some (some σ2) →
      extF σ σ2 ∧ ∀ p ∈ pairs, CondEqF σ2 p.1 p.2 := by
  intro n
  induction n with
  | zero => intro pairs σ σ2 h; simp [unifyArgsF] at h
  | succ k ih =>
    intro pairs σ σ2 h
    cases pairs with
    | nil =>
      simp only [unifyArgsF, Option.some.injEq] at h
      subst h
      exact ⟨extF_refl σ, by simp⟩
    | cons p rest =>
      obtain ⟨a, b⟩ := p
      simp only [unifyArgsF] at h
      cases hu : unifyTermsF k a b σ with
      | none => rw [hu] at h; simp at h
      | some r =>
        rw [hu] at h
        cases r with
        | none => simp at h
        | some σ3 =>
          have h2 : unifyArgsF k rest σ3 = some (some σ2) := h
          obtain ⟨hext1, hce1⟩ := unifyTermsF_cond k a b σ σ3 hu
          obtain ⟨hext2, hall⟩ := ih rest σ3 σ2 h2
          refine ⟨extF_trans hext1 hext2, ?_⟩
          intro q hq
          rcases List.mem_cons.mp hq with hq | hq
          · subst hq; exact condEqF_lift hext2 hce1
          · exact hall q hq

theorem applyArgsT_eq :
    ∀ (l1 l2 : List FTerm) (θ : SubstF) (m k : Nat) (as1 as2 : List FTerm),
      l1.length = l2.length →
      (∀ p ∈ l1.zip l2, CondEqF θ p.1 p.2) →
      applyArgsT m θ l1 = some as1 → applyArgsT k θ l2 = some as2 →
      as1 = as2 := by
  intro l1
  induction l1 with
  | nil =>
    intro l2 θ m k as1 as2 hlen _ h1 h2
    cases l2 with
    | nil => simp [applyArgsT] at h1 h2; rw [h1, h2]
    | cons b bs => simp at hlen
  | cons a as ih =>
    intro l2 θ m k as1 as2 hlen hce h1 h2
    cases l2 with
    | nil => simp at hlen
    | cons b bs =>
      simp only [applyArgsT] at h1 h2
      cases ha : applyT m θ a with
      | none => rw [ha] at h1; simp at h1
      | some r1 =>
        rw [ha] at h1
        cases has : applyArgsT m θ as with
        | none => rw [has] at h1; simp at h1
        | some rs1 =>
          rw [has] at h1
          simp only [Option.some.injEq] at h1
          cases hb : applyT k θ b with
          | none => rw [hb] at h2; simp at h2
          | some r2 =>
            rw [hb] at h2
            cases hbs : applyArgsT k θ bs with
            | none => rw [hbs] at h2; simp at h2
            | some rs2 =>
              rw [hbs] at h2
              simp only [Option.some.injEq] at h2
              have hhead : r1 = r2 :=
                hce (a, b) (by simp) θ (extF_refl θ) m r1 k r2 ha hb
              have htail : rs1 = rs2 :=
                ih bs θ m k rs1 rs2 (by simpa using hlen)
                  (fun p hp => hce p (by simp [hp])) has hbs
              rw [← h1, ← h2, hhead, htail]

/-- Conditional soundness of the `First_Order_Logic.py` predicate unifier:
if `unify_preds` succeeds from the empty substitution and applying the
returned substitution to both predicates terminates, the results are
structurally equal. -/
theorem unifyPredsF_sound :
    ∀ (n : Nat) (p1 p2 : PredF) (θ : SubstF) (m k : Nat) (q1 q2 : PredF),
      unifyPredsF n p1 p2 [] = some (some θ) →
      applyPredF m θ p1 = some q1 → applyPredF k θ p2 = some q2 → q1 = q2 := by
  intro n p1 p2 θ m k q1 q2 hu h1 h2
  unfold unifyPredsF at hu
  by_cases hcond : p1.name = p2.name ∧ p1.args.length = p2.args.length
  · rw [if_pos hcond] at hu
    obtain ⟨hname, hlen⟩ := hcond
    obtain ⟨_, hall⟩ := unifyArgsF_cond n _ [] θ hu
    unfold applyPredF at h1 h2
    cases hm1 : applyArgsT m θ p1.args with
    | none => rw [hm1] at h1; simp at h1
    | some as1 =>
      rw [hm1] at h1
      simp only [Option.some.injEq] at h1
      cases hm2 : applyArgsT k θ p2.args with
      | none => rw [hm2] at h2; simp at h2
      | some as2 =>
        rw [hm2] at h2
        simp only [Option.some.injEq] at h2
        have hargs : as1 = as2 :=
          applyArgsT_eq p1.args p2.args θ m k as1 as2 hlen hall hm1 hm2
        rw [← h1, ← h2, hargs, hname]
  · rw [if_neg hcond] at hu
    simp at hu

theorem mem_insLit {x a : LitF} : ∀ {l : List LitF}, x ∈ insLit a l → x = a ∨ x ∈ l := by
  intro l
  induction l with
  | nil => intro h; simpa [insLit] using h
  | cons b bs ih =>
    intro h
    simp only [insLit] at h
    by_cases hle : strLe (litKey a) (litKey b)
    · rw [if_pos hle] at h
      rcases List.mem_cons.mp h with h | h
      · exact Or.inl h
      · exact Or.inr h
    · rw [if_neg hle] at h
      rcases List.mem_cons.mp h with h | h
      · exact Or.inr (h ▸ List.mem_cons_self b bs)
      · rcases ih h with h | h
        · exact Or.inl h
        · exact Or.inr (List.mem_cons_of_mem b h)

theorem mem_sortLits {x : LitF} : ∀ {l : List LitF}, x ∈ sortLits l → x ∈ l := by
  intro l
  induction l with
  | nil => intro h; simp [sortLits] at h
  | cons a as ih =>
    intro h
    simp only [sortLits] at h
    rcases mem_insLit h with h | h
    · exact h ▸ List.mem_cons_self a as
    · exact List.mem_cons_of_mem a (ih h)

theorem mem_dedupLits {x : LitF} :
    ∀ {l seen : List LitF}, x ∈ dedupLits l seen → x ∈ l := by
  intro l
  induction l with
  | nil => intro seen h; simp [dedupLits] at h
  | cons a as ih =>
    intro seen h
    simp only [dedupLits] at h
    by_cases hmem : a ∈ seen
    · rw [if_pos hmem] at h
      exact List.mem_cons_of_mem a (ih h)
    · rw [if_neg hmem] at h
      rcases List.mem_cons.mp h with h | h
      · exact h ▸ List.mem_cons_self a as
      · exact List.mem_cons_of_mem a (ih h)

theorem mem_canonClause {x : LitF} {l : List LitF} (h : x ∈ canonClause l) : x ∈ l :=
  mem_dedupLits (mem_sortLits h)

theorem argEqB_self : ∀ (l : List FTerm), (l.zip l).all argEqB = true := by
  intro l
  induction l with
  | nil => simp
  | cons t ts ih =>
    simp only [List.zip_cons_cons, List.all_cons, ih, Bool.and_true]
    cases t with
    | var v => simp [argEqB]
    | const c => simp [argEqB]

theorem tautPairB_of_eq {a b : LitF} (hn : a.pred.name = b.pred.name)
    (hg : a.pred.args = b.pred.args) (hneg : a.neg ≠ b.neg) : tautPairB a b = true := by
  unfold tautPairB
  rw [hn, hg, argEqB_self]
  simp only [beq_self_eq_true, Bool.and_true, Bool.true_and]
  cases ha : a.neg <;> cases hb : b.neg <;> simp_all

theorem resolvePairF_shape {F : Nat} {c1 c2 : Clause} {l1 l2 : LitF} {r : Clause}
    (h : resolvePairF F c1 c2 l1 l2 = some (some r)) :
    ∃ nl, r = canonClause nl ∧
      (nl.any (fun a => nl.any (fun b => tautPairB a b))) = false := by
  unfold resolvePairF at h
  split at h
  · split at h
    · exact absurd h (by simp)
    · exact absurd h (by simp)
    · split at h
      · exact absurd h (by simp)
      · split at h
        · exact absurd h (by simp)
        · rename_i θ nl hnl htaut
          simp only [Option.some.injEq] at h
          exact ⟨nl, h.symm, Bool.eq_false_iff.mpr htaut⟩
  · exact absurd h (by simp)

theorem collectResolvents_mem {F : Nat} {c1 c2 : Clause} :
    ∀ {pairs : List (LitF × LitF)} {rs : List Clause},
      collectResolvents F c1 c2 pairs = some rs → ∀ r ∈ rs,
      ∃ l1 l2, resolvePairF F c1 c2 l1 l2 = some (some r) := by
  intro pairs
  induction pairs with
  | nil =>
    intro rs h r hr
    simp only [collectResolvents, Option.some.injEq] at h
    rw [← h] at hr
    simp at hr
  | cons p rest ih =>
    intro rs h r hr
    obtain ⟨l1, l2⟩ := p
    simp only [collectResolvents] at h
    cases hp : resolvePairF F c1 c2 l1 l2 with
    | none => rw [hp] at h; simp at h
    | some r0 =>
      rw [hp] at h
      cases hc : collectResolvents F c1 c2 rest with
      | none => rw [hc] at h; simp at h
      | some rs0 =>
        rw [hc] at h
        simp only [Option.some.injEq] at h
        cases r0 with
        | none =>
          rw [← h] at hr
          exact ih hc r hr
        | some c =>
          rw [← h] at hr
          rcases List.mem_cons.mp hr with hr | hr
          · exact ⟨l1, l2, hr ▸ hp⟩
          · exact ih hc r hr

/-- Every resolvent returned by `resolve` is tautology-free: it contains no
two literals with the same predicate name, identical argument lists, and
opposite polarity. -/
theorem resolveF_no_taut {F : Nat} {c1 c2 : Clause} {rs : List Clause}
    (h : resolveF F c1 c2 = some rs) :
    ∀ r ∈ rs, ∀ a ∈ r, ∀ b ∈ r,
      ¬(a.pred.name = b.pred.name ∧ a.neg ≠ b.neg ∧ a.pred.args = b.pred.args) := by
  intro r hr a ha b hb hcon
  obtain ⟨hn, hneg, hg⟩ := hcon
  obtain ⟨l1, l2, hpair⟩ := collectResolvents_mem h r hr
  obtain ⟨nl, hrnl, htaut⟩ := resolvePairF_shape hpair
  subst hrnl
  have hanl : a ∈ nl := mem_canonClause ha
  have hbnl : b ∈ nl := mem_canonClause hb
  have : nl.any (fun a => nl.any (fun b => tautPairB a b)) = true :=
    List.any_eq_true.mpr ⟨a, hanl,
      List.any_eq_true.mpr ⟨b, hbnl, tautPairB_of_eq hn hg hneg⟩⟩
  rw [this] at htaut
  cases htaut

/-- The saturation loop never consumes more steps than its remaining
budget. -/
theorem folLoop_count_le : ∀ (F rem : Nat) (st : StateF), (folLoop F rem st).2 ≤ rem := by
  intro F rem
  induction rem with
  | zero => intro st; simp [folLoop]
  | succ k ih =>
    intro st
    cases hag : st.agenda with
    | nil => simp [folLoop, hag]
    | cons p rest =>
      obtain ⟨c1, c2⟩ := p
      simp only [folLoop, hag]
      by_cases hdup : (c1, c2) ∈ st.checked
      · rw [if_pos hdup]
        simp only [tick]
        exact Nat.succ_le_succ (ih _)
      · rw [if_neg hdup]
        split
        · show 1 ≤ k + 1
          omega
        · split
          · show 1 ≤ k + 1
            omega
          · simp only [tick]
            exact Nat.succ_le_succ (ih _)

/-- Popping a pair that was already processed still consumes one unit of the
step budget: the counter is incremented before the already-processed check. -/
theorem folLoop_dup_step (F rem : Nat) (st : StateF) (c1 c2 : Clause)
    (rest : List (Clause × Clause))
    (hag : st.agenda = (c1, c2) :: rest) (hdup : (c1, c2) ∈ st.checked) :
    folLoop F (rem + 1) st = tick (folLoop F rem { st with agenda := rest }) := by
  simp only [folLoop, hag, if_pos hdup]

/-- A chain that reaches a self-bound variable never terminates, whichever
argument position it starts from. -/
theorem applyPredDiverges_of_head {σ : SubstF} {nm : String} {t : FTerm}
    {ts : List FTerm} (h : applyTDiverges σ t) : applyPredDiverges σ ⟨nm, t :: ts⟩ := by
  intro m
  simp [applyPredF, applyArgsT, h m]

/-- Dereferencing `x` under `{x ↦ y, y ↦ y}` never terminates. -/
theorem applyT_xy_diverges :
    applyTDiverges [("x", FTerm.var "y"), ("y", FTerm.var "y")] (.var "x") := by
  intro m
  cases m with
  | zero => rfl
  | succ k =>
    have hl : lookupF [("x", FTerm.var "y"), ("y", FTerm.var "y")] "x"
        = some (.var "y") := rfl
    simp only [applyT, hl]
    exact applyT_loop k _ "y" rfl

/-- Dereferencing `y` under `{x ↦ y, y ↦ y}` never terminates. -/
theorem applyT_yy_diverges :
    applyTDiverges [("x", FTerm.var "y"), ("y", FTerm.var "y")] (.var "y") :=
  fun m => applyT_loop m _ "y" rfl

end FOL

namespace UA

theorem lookup_append_some :
    ∀ (σ Δ : Subst) (x : String) (v : Term),
      lookup σ x = some v → lookup (σ ++ Δ) x = some v := by
  intro σ Δ x v h
  induction σ with
  | nil => simp [lookup] at h
  | cons p rest ih =>
    obtain ⟨y, t⟩ := p
    by_cases hyx : y = x
    · simp [lookup, hyx] at h ⊢; exact h
    · simp [lookup, hyx] at h ⊢; exact ih h

theorem lookup_append_of_none :
    ∀ (σ Δ : Subst) (x : String),
      lookup σ x = none → lookup (σ ++ Δ) x = lookup Δ x := by
  intro σ Δ x h
  induction σ with
  | nil => simp
  | cons p rest ih =>
    obtain ⟨y, t⟩ := p
    by_cases hyx : y = x
    · simp [lookup, hyx] at h
    · simp [lookup, hyx] at h ⊢; exact ih h

theorem ext_refl (σ : Subst) : ext σ σ := fun _ _ h => h

theorem ext_trans {a b c : Subst} (h1 : ext a b) (h2 : ext b c) : ext a c :=
  fun x v h => h2 x v (h1 x v h)

theorem ext_append (σ Δ : Subst) : ext σ (σ ++ Δ) :=
  fun x v h => lookup_append_some σ Δ x v h

theorem pyInsert_fresh :
    ∀ (σ : Subst) (x : String) (t : Term),
      lookup σ x = none → pyInsert σ x t = σ ++ [(x, t)] := by
  intro σ x t h
  induction σ with
  | nil => simp [pyInsert]
  | cons p rest ih =>
    obtain ⟨y, u⟩ := p
    by_cases hyx : y = x
    · simp [lookup, hyx] at h
    · simp [lookup, hyx] at h
      simp [pyInsert, hyx, ih h]

theorem applySubst_mono :
    ∀ (m : Nat),
      (∀ (σ : Subst) (t r : Term),
        applySubst m σ t = some r → applySubst (m + 1) σ t = some r) ∧
      (∀ (σ : Subst) (ts rs : List Term),
        applyArgs m σ ts = some rs → applyArgs (m + 1) σ ts = some rs) := by
  intro m
  induction m with
  | zero =>
    constructor
    · intro σ t r h; simp [applySubst] at h
    · intro σ ts rs h; simp [applyArgs] at h
  | succ k ih =>
    constructor
    · intro σ t r h
      cases t with
      | var x =>
        simp only [applySubst] at h ⊢
        cases hl : lookup σ x with
        | some u => rw [hl] at h; simp only [hl]; exact ih.1 σ u r h
        | none => rw [hl] at h; simpa [hl] using h
      | const c => simpa [applySubst] using h
      | func f args =>
        simp only [applySubst] at h ⊢
        cases ha : applyArgs k σ args with
        | none => rw [ha] at h; simp at h
        | some rs =>
          rw [ha] at h
          rw [ih.2 σ args rs ha]
          exact h
    · intro σ ts rs h
      cases ts with
      | nil => simpa [applyArgs] using h
      | cons t ts2 =>
        simp only [applyArgs] at h ⊢
        cases ht : applySubst k σ t with
        | none => rw [ht] at h; simp at h
        | some r =>
          rw [ht] at h
          cases hts : applyArgs k σ ts2 with
          | none => rw [hts] at h; simp at h
          | some rs2 =>
            rw [hts] at h
            rw [ih.1 σ t r ht, ih.2 σ ts2 rs2 hts]
            exact h

theorem applySubst_mono_le {m k : Nat} {σ : Subst} {t r : Term}
    (hle : m ≤ k) (h : applySubst m σ t = some r) : applySubst k σ t = some r := by
  induction hle with
  | refl => exact h
  | step _ ih => exact (applySubst_mono _).1 _ _ _ ih

theorem applyArgs_mono_le {m k : Nat} {σ : Subst} {ts rs : List Term}
    (hle : m ≤ k) (h : applyArgs m σ ts = some rs) : applyArgs k σ ts = some rs := by
  induction hle with
  | refl => exact h
  | step _ ih => exact (applySubst_mono _).2 _ _ _ ih

theorem applySubst_det {m k : Nat} {σ : Subst} {t r s : Term}
    (h1 : applySubst m σ t = some r) (h2 : applySubst k σ t = some s) : r = s := by
  rcases Nat.le_total m k with hle | hle
  · have := applySubst_mono_le hle h1
    rw [this] at h2; exact Option.some.inj h2
  · have := applySubst_mono_le hle h2
    rw [this] at h1; exact (Option.some.inj h1).symm

theorem applySubst_final :
    ∀ (m : Nat),
      (∀ (σ : Subst) (t r : Term),
        applySubst m σ t = some r → ∀ y ∈ vars r, lookup σ y = none) ∧
      (∀ (σ : Subst) (ts rs : List Term),
        applyArgs m σ ts = some rs → ∀ y ∈ varsList rs, lookup σ y = none) := by
  intro m
  induction m with
  | zero =>
    constructor
    · intro σ t r h; simp [applySubst] at h
    · intro σ ts rs h; simp [applyArgs] at h
  | succ k ih =>
    constructor
    · intro σ t r h y hy
      cases t with
      | var x =>
        simp only [applySubst] at h
        cases hl : lookup σ x with
        | some u => rw [hl] at h; exact ih.1 σ u r h y hy
        | none =>
          rw [hl] at h
          cases h
          simp [vars] at hy
          subst hy; exact hl
      | const c =>
        simp only [applySubst] at h
        cases h
        simp [vars] at hy
      | func f args =>
        simp only [applySubst] at h
        cases ha : applyArgs k σ args with
        | none => rw [ha] at h; simp at h
        | some rs =>
          rw [ha] at h
          cases h
          simp only [vars] at hy
          exact ih.2 σ args rs ha y hy
    · intro σ ts rs h y hy
      cases ts with
      | nil =>
        simp only [applyArgs] at h
        cases h
        simp [varsList] at hy
      | cons t ts2 =>
        simp only [applyArgs] at h
        cases ht : applySubst k σ t with
        | none => rw [ht] at h; simp at h
        | some r =>
          rw [ht] at h
          cases hts : applyArgs k σ ts2 with
          | none => rw [hts] at h; simp at h
          | some rs2 =>
            rw [hts] at h
            cases h
            simp only [varsList, List.mem_append] at hy
            rcases hy with hy | hy
            · exact ih.1 σ t r ht y hy
            · exact ih.2 σ ts2 rs2 hts y hy

theorem Term.recStrong {P : Term → Prop} (hv : ∀ x, P (.var x))
    (hc : ∀ c, P (.const c))
    (hf : ∀ f args, (∀ t ∈ args, P t) → P (.func f args)) : ∀ t, P t := by
  have key : ∀ (n : Nat) (t : Term), sizeOf t < n → P t := by
    intro n
    induction n with
    | zero => intro t ht; exact absurd ht (Nat.not_lt_zero _)
    | succ k ih =>
      intro t ht
      cases t with
      | var x => exact hv x
      | const c => exact hc c
      | func f args =>
        refine hf f args (fun u hu => ih u ?_)
        have h2 := List.sizeOf_lt_of_mem hu
        have h3 : sizeOf (Term.func f args) = 1 + sizeOf f + sizeOf args := by simp
        omega
  exact fun t => key (sizeOf t + 1) t (Nat.lt_succ_self _)

theorem applyArgs_fix_aux :
    ∀ (args : List Term) (σ : Subst),
      (∀ t ∈ args, ∀ σ2 : Subst, (∀ y ∈ vars t, lookup σ2 y = none) →
        ∃ m, applySubst m σ2 t = some t) →
      (∀ y ∈ varsList args, lookup σ y = none) →
      ∃ m, applyArgs m σ args = some args := by
  intro args
  induction args with
  | nil => intro σ _ _; exact ⟨1, by simp [applyArgs]⟩
  | cons t ts ih =>
    intro σ hP h
    obtain ⟨m1, hm1⟩ := hP t (by simp) σ
      (fun y hy => h y (by simp only [varsList, List.mem_append]; exact Or.inl hy))
    obtain ⟨m2, hm2⟩ := ih σ (fun u hu => hP u (by simp [hu]))
      (fun y hy => h y (by simp only [varsList, List.mem_append]; exact Or.inr hy))
    refine ⟨max m1 m2 + 1, ?_⟩
    simp only [applyArgs]
    rw [applySubst_mono_le (Nat.le_max_left m1 m2) hm1,
        applyArgs_mono_le (Nat.le_max_right m1 m2) hm2]

/-- A term none of whose variables is bound is a fixed point of
`apply_subst`. -/
theorem applySubst_fix :
    ∀ (t : Term), ∀ (σ : Subst), (∀ y ∈ vars t, lookup σ y = none) →
      ∃ m, applySubst m σ t = some t := by
  refine Term.recStrong ?_ ?_ ?_
  · intro x σ h
    exact ⟨1, by simp [applySubst, h x (by simp [vars])]⟩
  · intro c σ _
    exact ⟨1, by simp [applySubst]⟩
  · intro f args ih σ h
    obtain ⟨m, hm⟩ := applyArgs_fix_aux args σ ih (fun y hy => h y hy)
    exact ⟨m + 1, by simp [applySubst, hm]⟩

theorem applySubst_fix_eq {k : Nat} {σ : Subst} {t t2 : Term}
    (h : applySubst k σ t = some t2)
    (hfree : ∀ y ∈ vars t, lookup σ y = none) : t2 = t := by
  obtain ⟨m, hm⟩ := applySubst_fix t σ hfree
  exact applySubst_det h hm

/-- Kleene transfer: results of `apply_subst` under `σ` dereference the same
way under any extension `τ`. -/
theorem applySubst_comp :
    ∀ (n : Nat),
      (∀ (σ τ : Subst) (t u r : Term) (k : Nat), ext σ τ →
        applySubst n σ t = some u → applySubst k τ u = some r →
        ∃ j, applySubst j τ t = some r) ∧
      (∀ (σ τ : Subst) (ts us rs : List Term) (k : Nat), ext σ τ →
        applyArgs n σ ts = some us → applyArgs k τ us = some rs →
        ∃ j, applyArgs j τ ts = some rs) := by
  intro n
  induction n with
  | zero =>
    constructor
    · intro σ τ t u r k _ h1 _; simp [applySubst] at h1
    · intro σ τ ts us rs k _ h1 _; simp [applyArgs] at h1
  | succ m ih =>
    constructor
    · intro σ τ t u r k hext h1 h2
      cases t with
      | var x =>
        simp only [applySubst] at h1
        cases hl : lookup σ x with
        | some v =>
          rw [hl] at h1
          obtain ⟨j, hj⟩ := ih.1 σ τ v u r k hext h1 h2
          refine ⟨j + 1, ?_⟩
          simp [applySubst, hext x v hl, hj]
        | none =>
          rw [hl] at h1
          cases h1
          exact ⟨k, h2⟩
      | const c =>
        simp only [applySubst] at h1
        cases h1
        exact ⟨k, h2⟩
      | func f args =>
        simp only [applySubst] at h1
        cases ha : applyArgs m σ args with
        | none => rw [ha] at h1; simp at h1
        | some us2 =>
          rw [ha] at h1
          cases h1
          cases k with
          | zero => simp [applySubst] at h2
          | succ k2 =>
            simp only [applySubst] at h2
            cases hb : applyArgs k2 τ us2 with
            | none => rw [hb] at h2; simp at h2
            | some rs2 =>
              rw [hb] at h2
              cases h2
              obtain ⟨j, hj⟩ := ih.2 σ τ args us2 rs2 k2 hext ha hb
              exact ⟨j + 1, by simp [applySubst, hj]⟩
    · intro σ τ ts us rs k hext h1 h2
      cases ts with
      | nil =>
        simp only [applyArgs] at h1
        cases h1
        cases k with
        | zero => simp [applyArgs] at h2
        | succ k2 =>
          simp only [applyArgs] at h2
          cases h2
          exact ⟨1, by simp [applyArgs]⟩
      | cons t ts2 =>
        simp only [applyArgs] at h1
        cases ht : applySubst m σ t with
        | none => rw [ht] at h1; simp at h1
        | some u1 =>
          rw [ht] at h1
          cases hts : applyArgs m σ ts2 with
          | none => rw [hts] at h1; simp at h1
          | some us2 =>
            rw [hts] at h1
            cases h1
            cases k with
            | zero => simp [applyArgs] at h2
            | succ k2 =>
              simp only [applyArgs] at h2
              cases hu1 : applySubst k2 τ u1 with
              | none => rw [hu1] at h2; simp at h2
              | some r1 =>
                rw [hu1] at h2
                cases hus2 : applyArgs k2 τ us2 with
                | none => rw [hus2] at h2; simp at h2
                | some rs2 =>
                  rw [hus2] at h2
                  cases h2
                  obtain ⟨j1, hj1⟩ := ih.1 σ τ t u1 r1 k2 hext ht hu1
                  obtain ⟨j2, hj2⟩ := ih.2 σ τ ts2 us2 rs2 k2 hext hts hus2
                  refine ⟨max j1 j2 + 1, ?_⟩
                  simp only [applyArgs]
                  rw [applySubst_mono_le (Nat.le_max_left j1 j2) hj1,
                      applyArgs_mono_le (Nat.le_max_right j1 j2) hj2]

/-- On a fully dereferenced term, `occurs_in` decides exactly variable
occurrence. -/
theorem occursIn_eq :
    ∀ (n : Nat),
      (∀ (x : String) (t : Term) (σ : Subst) (b : Bool),
        occursIn n x t σ = some b → (∀ y ∈ vars t, lookup σ y = none) →
        (b = true ↔ x ∈ vars t)) ∧
      (∀ (x : String) (ts : List Term) (σ : Subst) (b : Bool),
        occursList n x ts σ = some b → (∀ y ∈ varsList ts, lookup σ y = none) →
        (b = true ↔ x ∈ varsList ts)) := by
  intro n
  induction n with
  | zero =>
    constructor
    · intro x t σ b h _; simp [occursIn] at h
    · intro x ts σ b h _; simp [occursList] at h
  | succ k ih =>
    constructor
    · intro x t σ b h hfree
      simp only [occursIn] at h
      cases ha : applySubst k σ t with
      | none => rw [ha] at h; simp at h
      | some t2 =>
        rw [ha] at h
        have ht2 : t2 = t := applySubst_fix_eq ha hfree
        subst ht2
        cases t2 with
        | var y =>
          simp only [Option.some.injEq] at h
          subst h
          simp [vars, eq_comm]
        | const c =>
          simp only [Option.some.injEq] at h
          subst h
          simp [vars]
        | func f args =>
          exact ih.2 x args σ b h (fun y hy => hfree y hy)
    · intro x ts σ b h hfree
      cases ts with
      | nil =>
        simp only [occursList, Option.some.injEq] at h
        subst h
        simp [varsList]
      | cons t ts2 =>
        simp only [occursList] at h
        cases ht : occursIn k x t σ with
        | none => rw [ht] at h; simp at h
        | some b1 =>
          rw [ht] at h
          have hhead := ih.1 x t σ b1 ht
            (fun y hy => hfree y (by simp only [varsList, List.mem_append]; exact Or.inl hy))
          cases b1 with
          | true =>
            simp only [if_pos] at h
            simp only [Option.some.injEq] at h
            subst h
            simp only [varsList, List.mem_append, true_iff]
            exact Or.inl (hhead.mp rfl)
          | false =>
            simp only [if_neg Bool.false_ne_true] at h
            have htail := ih.2 x ts2 σ b h
              (fun y hy => hfree y (by simp only [varsList, List.mem_append]; exact Or.inr hy))
            simp only [varsList, List.mem_append]
            constructor
            · intro hb; exact Or.inr (htail.mp hb)
            · intro hx
              rcases hx with hx | hx
              · exact absurd (hhead.mpr hx) (by simp)
              · exact htail.mpr hx

theorem mem_varsList {y : String} {u : Term} :
    ∀ {args : List Term}, u ∈ args → y ∈ vars u → y ∈ varsList args := by
  intro args
  induction args with
  | nil => intro h _; simp at h
  | cons a as ih =>
    intro h hy
    rcases List.mem_cons.mp h with h | h
    · subst h; simp only [varsList, List.mem_append]; exact Or.inl hy
    · simp only [varsList, List.mem_append]; exact Or.inr (ih h hy)

theorem wfs_nil : WFS [] :=
  ⟨fun _ => 0, by intro x t h; simp [lookup] at h⟩

/-- Appending a fresh binding whose right-hand side is fully dereferenced and
passes the occurs-check preserves acyclicity. -/
theorem wfs_insert {σ : Subst} {x : String} {u : Term}
    (hwf : WFS σ) (hx : lookup σ x = none)
    (hufree : ∀ y ∈ vars u, lookup σ y = none) (hxu : x ∉ vars u) :
    WFS (σ ++ [(x, u)]) := by
  obtain ⟨rk, hrk⟩ := hwf
  refine ⟨fun w => if w = x then 0 else rk w + 1, ?_⟩
  intro z t hz y hy hysome
  show (if y = x then 0 else rk y + 1) < (if z = x then 0 else rk z + 1)
  by_cases hzx : z = x
  · exfalso
    have hzu : lookup (σ ++ [(x, u)]) x = some u := by
      rw [lookup_append_of_none σ _ x hx]; simp [lookup]
    rw [hzx, hzu] at hz
    have ht : t = u := (Option.some.inj hz).symm
    rw [ht] at hy
    have hyx : y ≠ x := fun he => hxu (he ▸ hy)
    have hynone : lookup (σ ++ [(x, u)]) y = none := by
      rw [lookup_append_of_none σ _ y (hufree y hy)]
      simp [lookup, Ne.symm hyx]
    rw [hynone] at hysome
    simp at hysome
  · have hz0 : lookup σ z = some t := by
      cases hσz : lookup σ z with
      | some t2 =>
        have h2 := lookup_append_some σ [(x, u)] z t2 hσz
        have h3 : t2 = t := Option.some.inj (h2.symm.trans hz)
        rw [← h3]
      | none =>
        rw [lookup_append_of_none σ _ z hσz] at hz
        simp [lookup, Ne.symm hzx] at hz
    rw [if_neg hzx]
    by_cases hyx : y = x
    · rw [if_pos hyx]
      omega
    · have hy0 : (lookup σ y).isSome := by
        cases hσy : lookup σ y with
        | some t2 => simp
        | none =>
          rw [lookup_append_of_none σ _ y hσy] at hysome
          simp [lookup, Ne.symm hyx] at hysome
      have h4 := hrk z t hz0 y hy hy0
      rw [if_neg hyx]
      omega

theorem rk_le_foldr (rk : String → Nat) :
    ∀ (l : List String) (y : String), y ∈ l →
      rk y ≤ l.foldr (fun z acc => max (rk z) acc) 0 := by
  intro l
  induction l with
  | nil => intro y hy; simp at hy
  | cons z zs ih =>
    intro y hy
    rcases List.mem_cons.mp hy with hy | hy
    · subst hy; simp only [List.foldr]; exact Nat.le_max_left _ _
    · simp only [List.foldr]; exact Nat.le_trans (ih y hy) (Nat.le_max_right _ _)

/-- On an acyclic substitution, `apply_subst` terminates on every term. -/
theorem wfs_total {σ : Subst} (hwf : WFS σ) :
    ∀ t : Term, ∃ m r, applySubst m σ t = some r := by
  obtain ⟨rk, hrk⟩ := hwf
  have hargs : ∀ (l : List Term), (∀ u ∈ l, ∃ m r, applySubst m σ u = some r) →
      ∃ m rs, applyArgs m σ l = some rs := by
    intro l
    induction l with
    | nil => intro _; exact ⟨1, [], by simp [applyArgs]⟩
    | cons u us ih =>
      intro h
      obtain ⟨m1, r1, h1⟩ := h u (by simp)
      obtain ⟨m2, rs2, h2⟩ := ih (fun v hv => h v (by simp [hv]))
      refine ⟨max m1 m2 + 1, r1 :: rs2, ?_⟩
      simp only [applyArgs]
      rw [applySubst_mono_le (Nat.le_max_left m1 m2) h1,
          applyArgs_mono_le (Nat.le_max_right m1 m2) h2]
  have main : ∀ (d : Nat) (t : Term),
      (∀ y ∈ vars t, ∀ u, lookup σ y = some u → rk y < d) →
      ∃ m r, applySubst m σ t = some r := by
    intro d
    induction d with
    | zero =>
      intro t ht
      have hfree : ∀ y ∈ vars t, lookup σ y = none := by
        intro y hy
        cases hl : lookup σ y with
        | none => rfl
        | some u => exact absurd (ht y hy u hl) (Nat.not_lt_zero _)
      obtain ⟨m, hm⟩ := applySubst_fix t σ hfree
      exact ⟨m, t, hm⟩
    | succ d ihd =>
      refine Term.recStrong ?_ ?_ ?_
      · intro x ht
        cases hl : lookup σ x with
        | none => exact ⟨1, .var x, by simp [applySubst, hl]⟩
        | some u =>
          have hu : ∀ y ∈ vars u, ∀ w, lookup σ y = some w → rk y < d := by
            intro y hy w hw
            have h1 := hrk x u hl y hy (by simp [hw])
            have h2 : rk x < d + 1 := ht x (by simp [vars]) u hl
            omega
          obtain ⟨m, r, hm⟩ := ihd u hu
          exact ⟨m + 1, r, by simp [applySubst, hl, hm]⟩
      · intro c _
        exact ⟨1, .const c, by simp [applySubst]⟩
      · intro f args ihargs ht
        have h1 : ∀ u ∈ args, ∃ m r, applySubst m σ u = some r := by
          intro u hu
          exact ihargs u hu (fun y hy w hw => ht y (mem_varsList hu hy) w hw)
        obtain ⟨m, rs, hm⟩ := hargs args h1
        exact ⟨m + 1, .func f rs, by simp [applySubst, hm]⟩
  intro t
  refine main ((vars t).foldr (fun z acc => max (rk z) acc) 0 + 1) t ?_
  intro y hy u _
  have := rk_le_foldr rk (vars t) y hy
  omega

theorem lookup_snoc_self {σ : Subst} {x : String} {t : Term}
    (hx : lookup σ x = none) : lookup (σ ++ [(x, t)]) x = some t := by
  rw [lookup_append_of_none σ _ x hx]; simp [lookup]

theorem lookup_snoc_other {σ : Subst} {x y : String} {t : Term}
    (hy : lookup σ y = none) (hyx : y ≠ x) : lookup (σ ++ [(x, t)]) y = none := by
  rw [lookup_append_of_none σ _ y hy]; simp [lookup, Ne.symm hyx]

theorem unifEq_lift {σ τ : Subst} {a b : Term}
    (hwf : WFS τ) (hext : ext σ τ) (h : UnifEq σ a b) : UnifEq τ a b := by
  obtain ⟨m, r, h1, h2⟩ := h
  obtain ⟨k, r2, hk⟩ := wfs_total hwf r
  obtain ⟨j1, hj1⟩ := (applySubst_comp m).1 σ τ a r r2 k hext h1 hk
  obtain ⟨j2, hj2⟩ := (applySubst_comp m).1 σ τ b r r2 k hext h2 hk
  exact ⟨max j1 j2, r2, applySubst_mono_le (Nat.le_max_left _ _) hj1,
         applySubst_mono_le (Nat.le_max_right _ _) hj2⟩

/-- The state after a successful occurs-checked binding: the new substitution
is acyclic, extends the old one, and sends both the bound variable and its
binding to the binding itself. -/
theorem bind_case_sound {σ : Subst} {a : String} {u : Term}
    (hwf : WFS σ) (ha : lookup σ a = none)
    (hufree : ∀ y ∈ vars u, lookup σ y = none) (hau : a ∉ vars u) :
    WFS (σ ++ [(a, u)]) ∧ ext σ (σ ++ [(a, u)]) ∧
      ∃ m, applySubst m (σ ++ [(a, u)]) (.var a) = some u ∧
           applySubst m (σ ++ [(a, u)]) u = some u := by
  refine ⟨wfs_insert hwf ha hufree hau, ext_append σ _, ?_⟩
  have hufree2 : ∀ y ∈ vars u, lookup (σ ++ [(a, u)]) y = none := by
    intro y hy
    exact lookup_snoc_other (hufree y hy) (fun he => hau (he ▸ hy))
  obtain ⟨m0, hm0⟩ := applySubst_fix u _ hufree2
  refine ⟨m0 + 1, ?_, (applySubst_mono _).1 _ _ _ hm0⟩
  simp [applySubst, lookup_snoc_self ha, hm0]

/-- Soundness of the `Unification_Algorithm.py` unifier, by induction on the
recursion depth: a successful run from an acyclic substitution yields an
acyclic extension under which both terms dereference to a common result. -/
theorem unify_sound_aux :
    ∀ (n : Nat),
      (∀ (t1 t2 : Term) (σ σ2 : Subst),
        unifyTerms n t1 t2 σ = some (some σ2) → WFS σ →
        WFS σ2 ∧ ext σ σ2 ∧ UnifEq σ2 t1 t2) ∧
      (∀ (as bs : List Term) (σ σ2 : Subst),
        unifyList n as bs σ = some (some σ2) → WFS σ →
        WFS σ2 ∧ ext σ σ2 ∧ UnifEqL σ2 as bs) := by
  intro n
  induction n with
  | zero =>
    constructor
    · intro t1 t2 σ σ2 h _; simp [unifyTerms] at h
    · intro as bs σ σ2 h _; simp [unifyList] at h
  | succ k ih =>
    constructor
    · intro t1 t2 σ σ2 h hwf
      simp only [unifyTerms] at h
      cases h1 : applySubst k σ t1 with
      | none => rw [h1] at h; simp at h
      | some u1 =>
        rw [h1] at h
        cases h2 : applySubst k σ t2 with
        | none => rw [h2] at h; simp at h
        | some u2 =>
          rw [h2] at h
          have hfin1 : ∀ y ∈ vars u1, lookup σ y = none :=
            (applySubst_final k).1 σ t1 u1 h1
          have hfin2 : ∀ y ∈ vars u2, lookup σ y = none :=
            (applySubst_final k).1 σ t2 u2 h2
          cases u1 with
          | const a =>
            cases u2 with
            | const b =>
              have hx : (if a = b then some (some σ) else some none) =
                  some (some σ2) := h
              by_cases hab : a = b
              · rw [if_pos hab] at hx
                simp only [Option.some.injEq] at hx
                subst hx
                refine ⟨hwf, ext_refl σ, k, .const a, h1, ?_⟩
                rw [hab]
                exact h2
              · rw [if_neg hab] at hx
                simp at hx
            | var b =>
              have hx : (match occursIn k b (.const a) σ with
                | none => (none : Option (Option Subst))
                | some true => some none
                | some false => some (some (pyInsert σ b (.const a)))) =
                  some (some σ2) := h
              cases hocc : occursIn k b (.const a) σ with
              | none => rw [hocc] at hx; simp at hx
              | some ob =>
                rw [hocc] at hx
                cases ob with
                | true => simp at hx
                | false =>
                  simp only [Option.some.injEq] at hx
                  have hb : lookup σ b = none := hfin2 b (by simp [vars])
                  have hbu : b ∉ vars (Term.const a) := by simp [vars]
                  rw [pyInsert_fresh σ b _ hb] at hx
                  subst hx
                  obtain ⟨hwf2, hext, m, hva, huu⟩ :=
                    bind_case_sound hwf hb (by simp [vars]) hbu
                  obtain ⟨j1, hj1⟩ :=
                    (applySubst_comp k).1 σ _ t1 (.const a) (.const a) m hext h1 huu
                  obtain ⟨j2, hj2⟩ :=
                    (applySubst_comp k).1 σ _ t2 (.var b) (.const a) m hext h2 hva
                  exact ⟨hwf2, hext, max j1 j2, .const a,
                    applySubst_mono_le (Nat.le_max_left _ _) hj1,
                    applySubst_mono_le (Nat.le_max_right _ _) hj2⟩
            | func g bs =>
              have hx : (some none : Option (Option Subst)) = some (some σ2) := h
              simp at hx
          | var a =>
            cases u2 with
            | var b =>
              have hx : (if a = b then some (some σ)
                else match occursIn k a (.var b) σ with
                  | none => (none : Option (Option Subst))
                  | some true => some none
                  | some false => some (some (pyInsert σ a (.var b)))) =
                  some (some σ2) := h
              by_cases hab : a = b
              · rw [if_pos hab] at hx
                simp only [Option.some.injEq] at hx
                subst hx
                refine ⟨hwf, ext_refl σ, k, .var a, h1, ?_⟩
                rw [hab]
                exact h2
              · rw [if_neg hab] at hx
                cases hocc : occursIn k a (.var b) σ with
                | none => rw [hocc] at hx; simp at hx
                | some ob =>
                  rw [hocc] at hx
                  cases ob with
                  | true => simp at hx
                  | false =>
                    simp only [Option.some.injEq] at hx
                    have hafree : lookup σ a = none := hfin1 a (by simp [vars])
                    have hab2 : a ∉ vars (Term.var b) := by simp [vars, hab]
                    rw [pyInsert_fresh σ a _ hafree] at hx
                    subst hx
                    obtain ⟨hwf2, hext, m, hva, huu⟩ :=
                      bind_case_sound hwf hafree
                        (by intro y hy; simp [vars] at hy; subst hy
                            exact hfin2 _ (by simp [vars])) hab2
                    obtain ⟨j1, hj1⟩ :=
                      (applySubst_comp k).1 σ _ t1 (.var a) (.var b) m hext h1 hva
                    obtain ⟨j2, hj2⟩ :=
                      (applySubst_comp k).1 σ _ t2 (.var b) (.var b) m hext h2 huu
                    exact ⟨hwf2, hext, max j1 j2, .var b,
                      applySubst_mono_le (Nat.le_max_left _ _) hj1,
                      applySubst_mono_le (Nat.le_max_right _ _) hj2⟩
            | const c =>
              have hx : (match occursIn k a (.const c) σ with
                | none => (none : Option (Option Subst))
                | some true => some none
                | some false => some (some (pyInsert σ a (.const c)))) =
                  some (some σ2) := h
              cases hocc : occursIn k a (.const c) σ with
              | none => rw [hocc] at hx; simp at hx
              | some ob =>
                rw [hocc] at hx
                cases ob with
                | true => simp at hx
                | false =>
                  simp only [Option.some.injEq] at hx
                  have hafree : lookup σ a = none := hfin1 a (by simp [vars])
                  have hac : a ∉ vars (Term.const c) := by simp [vars]
                  rw [pyInsert_fresh σ a _ hafree] at hx
                  subst hx
                  obtain ⟨hwf2, hext, m, hva, huu⟩ :=
                    bind_case_sound hwf hafree (by simp [vars]) hac
                  obtain ⟨j1, hj1⟩ :=
                    (applySubst_comp k).1 σ _ t1 (.var a) (.const c) m hext h1 hva
                  obtain ⟨j2, hj2⟩ :=
                    (applySubst_comp k).1 σ _ t2 (.const c) (.const c) m hext h2 huu
                  exact ⟨hwf2, hext, max j1 j2, .const c,
                    applySubst_mono_le (Nat.le_max_left _ _) hj1,
                    applySubst_mono_le (Nat.le_max_right _ _) hj2⟩
            | func g bs =>
              have hx : (match occursIn k a (.func g bs) σ with
                | none => (none : Option (Option Subst))
                | some true => some none
                | some false => some (some (pyInsert σ a (.func g bs)))) =
                  some (some σ2) := h
              cases hocc : occursIn k a (.func g bs) σ with
              | none => rw [hocc] at hx; simp at hx
              | some ob =>
                rw [hocc] at hx
                cases ob with
                | true => simp at hx
                | false =>
                  simp only [Option.some.injEq] at hx
                  have hafree : lookup σ a = none := hfin1 a (by simp [vars])
                  have hag : a ∉ vars (Term.func g bs) := by
                    intro hmem
                    have hiff := (occursIn_eq k).1 a (.func g bs) σ false hocc hfin2
                    have := hiff.mpr hmem
                    simp at this
                  rw [pyInsert_fresh σ a _ hafree] at hx
                  subst hx
                  obtain ⟨hwf2, hext, m, hva, huu⟩ :=
                    bind_case_sound hwf hafree hfin2 hag
                  obtain ⟨j1, hj1⟩ :=
                    (applySubst_comp k).1 σ _ t1 (.var a) (.func g bs) m hext h1 hva
                  obtain ⟨j2, hj2⟩ :=
                    (applySubst_comp k).1 σ _ t2 (.func g bs) (.func g bs) m hext h2 huu
                  exact ⟨hwf2, hext, max j1 j2, .func g bs,
                    applySubst_mono_le (Nat.le_max_left _ _) hj1,
                    applySubst_mono_le (Nat.le_max_right _ _) hj2⟩
          | func f as =>
            cases u2 with
            | var b =>
              have hx : (match occursIn k b (.func f as) σ with
                | none => (none : Option (Option Subst))
                | some true => some none
                | some false => some (some (pyInsert σ b (.func f as)))) =
                  some (some σ2) := h
              cases hocc : occursIn k b (.func f as) σ with
              | none => rw [hocc] at hx; simp at hx
              | some ob =>
                rw [hocc] at hx
                cases ob with
                | true => simp at hx
                | false =>
                  simp only [Option.some.injEq] at hx
                  have hbfree : lookup σ b = none := hfin2 b (by simp [vars])
                  have hbf : b ∉ vars (Term.func f as) := by
                    intro hmem
                    have hiff := (occursIn_eq k).1 b (.func f as) σ false hocc hfin1
                    have := hiff.mpr hmem
                    simp at this
                  rw [pyInsert_fresh σ b _ hbfree] at hx
                  subst hx
                  obtain ⟨hwf2, hext, m, hva, huu⟩ :=
                    bind_case_sound hwf hbfree hfin1 hbf
                  obtain ⟨j1, hj1⟩ :=
                    (applySubst_comp k).1 σ _ t1 (.func f as) (.func f as) m hext h1 huu
                  obtain ⟨j2, hj2⟩ :=
                    (applySubst_comp k).1 σ _ t2 (.var b) (.func f as) m hext h2 hva
                  exact ⟨hwf2, hext, max j1 j2, .func f as,
                    applySubst_mono_le (Nat.le_max_left _ _) hj1,
                    applySubst_mono_le (Nat.le_max_right _ _) hj2⟩
            | const c =>
              have hx : (some none : Option (Option Subst)) = some (some σ2) := h
              simp at hx
            | func g bs =>
              have hx : (if f = g ∧ as.length = bs.length then unifyList k as bs σ
                else some none) = some (some σ2) := h
              by_cases hcond : f = g ∧ as.length = bs.length
              · rw [if_pos hcond] at hx
                obtain ⟨hwf2, hext, m, rs, has, hbs⟩ := ih.2 as bs σ σ2 hx hwf
                have hfa : applySubst (m + 1) σ2 (.func f as) = some (.func f rs) := by
                  simp [applySubst, has]
                have hfb : applySubst (m + 1) σ2 (.func g bs) = some (.func f rs) := by
                  simp [applySubst, hbs, hcond.1]
                obtain ⟨j1, hj1⟩ :=
                  (applySubst_comp k).1 σ σ2 t1 (.func f as) (.func f rs) (m + 1) hext h1 hfa
                obtain ⟨j2, hj2⟩ :=
                  (applySubst_comp k).1 σ σ2 t2 (.func g bs) (.func f rs) (m + 1) hext h2 hfb
                exact ⟨hwf2, hext, max j1 j2, .func f rs,
                  applySubst_mono_le (Nat.le_max_left _ _) hj1,
                  applySubst_mono_le (Nat.le_max_right _ _) hj2⟩
              · rw [if_neg hcond] at hx
                simp at hx
    · intro as bs σ σ2 h hwf
      cases as with
      | nil =>
        cases bs with
        | nil =>
          simp only [unifyList, Option.some.injEq] at h
          subst h
          exact ⟨hwf, ext_refl σ, 1, [], by simp [applyArgs], by simp [applyArgs]⟩
        | cons b bs2 =>
          simp [unifyList] at h
      | cons a as2 =>
        cases bs with
        | nil => simp [unifyList] at h
        | cons b bs2 =>
          simp only [unifyList] at h
          cases hu : unifyTerms k a b σ with
          | none => rw [hu] at h; simp at h
          | some r =>
            rw [hu] at h
            cases r with
            | none => simp at h
            | some σ3 =>
              have h3 : unifyList k as2 bs2 σ3 = some (some σ2) := h
              obtain ⟨hwf3, hext3, heq3⟩ := ih.1 a b σ σ3 hu hwf
              obtain ⟨hwf2, hext2, m, rs, has, hbs⟩ := ih.2 as2 bs2 σ3 σ2 h3 hwf3
              obtain ⟨m1, r1, hr1, hr2⟩ := unifEq_lift hwf2 hext2 heq3
              refine ⟨hwf2, ext_trans hext3 hext2, max m1 m + 1, r1 :: rs, ?_, ?_⟩
              · simp only [applyArgs]
                rw [applySubst_mono_le (Nat.le_max_left m1 m) hr1,
                    applyArgs_mono_le (Nat.le_max_right m1 m) has]
              · simp only [applyArgs]
                rw [applySubst_mono_le (Nat.le_max_left m1 m) hr2,
                    applyArgs_mono_le (Nat.le_max_right m1 m) hbs]

/-- Soundness of `unify` from the empty substitution: a returned substitution
sends both terms to a common (terminating) result. -/
theorem unify_sound {n : Nat} {t1 t2 : Term} {θ : Subst}
    (h : unify n t1 t2 = some (some θ)) :
    ∃ m r, applySubst m θ t1 = some r ∧ applySubst m θ t2 = some r :=
  ((unify_sound_aux n).1 t1 t2 [] θ h wfs_nil).2.2

/-- The occurs-check makes `unify` Fail on a variable against a compound
containing it: the result is never a substitution. -/
theorem occurs_check_fails {n : Nat} {x f : String} {args : List Term}
    {σ2 : Subst} (hmem : x ∈ vars (Term.func f args)) :
    unify n (.var x) (.func f args) ≠ some (some σ2) := by
  cases n with
  | zero => simp [unify, unifyTerms]
  | succ k =>
    intro h
    simp only [unify, unifyTerms] at h
    cases ha : applySubst k [] (Term.var x) with
    | none => rw [ha] at h; simp at h
    | some u1 =>
      rw [ha] at h
      have hu1 : u1 = .var x := applySubst_fix_eq ha (by intro y hy; simp [lookup])
      cases hb : applySubst k [] (Term.func f args) with
      | none => rw [hb] at h; simp at h
      | some u2 =>
        rw [hb] at h
        have hu2 : u2 = .func f args :=
          applySubst_fix_eq hb (by intro y hy; simp [lookup])
        subst hu1
        subst hu2
        have hx : (match occursIn k x (.func f args) [] with
          | none => (none : Option (Option Subst))
          | some true => some none
          | some false => some (some (pyInsert [] x (.func f args)))) =
            some (some σ2) := h
        cases hocc : occursIn k x (.func f args) [] with
        | none => rw [hocc] at hx; simp at hx
        | some ob =>
          rw [hocc] at hx
          cases ob with
          | true => simp at hx
          | false =>
            have hiff := (occursIn_eq k).1 x (.func f args) [] false hocc
              (by intro y hy; simp [lookup])
            have hcon := hiff.mpr hmem
            simp at hcon

/-- `apply_subst` leaves its own results fixed: a second application of the
same substitution converges to the same term. -/
theorem applySubst_idem {m : Nat} {σ : Subst} {t r : Term}
    (h : applySubst m σ t = some r) : ∃ j, applySubst j σ r = some r :=
  applySubst_fix r σ ((applySubst_final m).1 σ t r h)

end UA

/-!
## Claims

Each claim of the specification is settled by exactly one theorem below
(with a witness instantiating it on concrete inputs when its statement has
hypotheses, and a counterexample when the claim as frozen fails on the
code).
-/

/-- C1 counterexample: the `First_Order_Logic.py` predicate unifier succeeds
on `parent(x,x)` and `parent(y,y)` with the substitution `{x ↦ y, y ↦ y}`,
and applying that substitution to either predicate never terminates
(a `RecursionError` in the source), so the two applications do not yield
structurally equal terms as the claim states. -/
theorem C1_counterexample :
    FOL.unifyPredsF 10 ⟨"parent", [.var "x", .var "x"]⟩
        ⟨"parent", [.var "y", .var "y"]⟩ []
      = some (some [("x", FOL.FTerm.var "y"), ("y", FOL.FTerm.var "y")]) ∧
    FOL.applyPredDiverges [("x", FOL.FTerm.var "y"), ("y", FOL.FTerm.var "y")]
      ⟨"parent", [.var "x", .var "x"]⟩ ∧
    FOL.applyPredDiverges [("x", FOL.FTerm.var "y"), ("y", FOL.FTerm.var "y")]
      ⟨"parent", [.var "y", .var "y"]⟩ :=
  ⟨rfl, FOL.applyPredDiverges_of_head FOL.applyT_xy_diverges,
        FOL.applyPredDiverges_of_head FOL.applyT_yy_diverges⟩

/-- C1 (amended): unification soundness.  For the `Unification_Algorithm.py`
unifier it holds unconditionally: a substitution returned from the empty
substitution sends both terms, with enough dereferencing depth, to a common
result.  For the `First_Order_Logic.py` predicate unifier it holds whenever
applying the returned substitution to both predicates terminates. -/
theorem C1_unification_soundness :
    (∀ (n : Nat) (t1 t2 : UA.Term) (θ : UA.Subst),
      UA.unify n t1 t2 = some (some θ) →
      ∃ m r, UA.applySubst m θ t1 = some r ∧ UA.applySubst m θ t2 = some r) ∧
    (∀ (n : Nat) (p1 p2 : FOL.PredF) (θ : FOL.SubstF) (m k : Nat)
      (q1 q2 : FOL.PredF),
      FOL.unifyPredsF n p1 p2 [] = some (some θ) →
      FOL.applyPredF m θ p1 = some q1 → FOL.applyPredF k θ p2 = some q2 →
      q1 = q2) :=
  ⟨fun _ _ _ _ h => UA.unify_sound h,
   fun n p1 p2 θ m k q1 q2 => FOL.unifyPredsF_sound n p1 p2 θ m k q1 q2⟩

/-- C1 witness: `unify(f(x,a), f(b,y))` returns `{x ↦ b, y ↦ a}` and both
sides apply to a common term; the FOL unifier on `knows(u,c)`/`knows(d,v)`
returns `{u ↦ d, v ↦ c}` and both applications agree. -/
theorem C1_witness :
    (∃ m r,
      UA.applySubst m [("x", UA.Term.const "b"), ("y", UA.Term.const "a")]
        (.func "f" [.var "x", .const "a"]) = some r ∧
      UA.applySubst m [("x", UA.Term.const "b"), ("y", UA.Term.const "a")]
        (.func "f" [.const "b", .var "y"]) = some r) ∧
    (FOL.PredF.mk "knows" [.const "d", .const "c"] =
     FOL.PredF.mk "knows" [.const "d", .const "c"]) :=
  ⟨C1_unification_soundness.1 8 (.func "f" [.var "x", .const "a"])
      (.func "f" [.const "b", .var "y"])
      [("x", UA.Term.const "b"), ("y", UA.Term.const "a")] rfl,
   C1_unification_soundness.2 8 ⟨"knows", [.var "u", .const "c"]⟩
      ⟨"knows", [.const "d", .var "v"]⟩
      [("u", FOL.FTerm.const "d"), ("v", FOL.FTerm.const "c")] 3 3
      ⟨"knows", [.const "d", .const "c"]⟩ ⟨"knows", [.const "d", .const "c"]⟩
      rfl rfl rfl⟩

/-- C2 counterexample: the `First_Order_Logic.py` unifier constructs a
substitution binding a variable to a term containing that variable —
`unify_terms(x, x, {})` returns `{x ↦ x}`. -/
theorem C2_counterexample :
    FOL.unifyTermsF 5 (.var "x") (.var "x") []
      = some (some [("x", FOL.FTerm.var "x")]) ∧
    "x" ∈ FOL.varsF (FOL.FTerm.var "x") :=
  ⟨rfl, by simp [FOL.varsF]⟩

/-- C2 (amended): in `Unification_Algorithm.py`, unifying a variable against
a compound term containing it Fails: the result is never a substitution.
(The `First_Order_Logic.py` unifier has no compound terms, but can bind a
variable to itself, as the counterexample shows.) -/
theorem C2_occurs_check :
    ∀ (n : Nat) (x f : String) (args : List UA.Term) (σ2 : UA.Subst),
      x ∈ UA.vars (.func f args) →
      UA.unify n (.var x) (.func f args) ≠ some (some σ2) :=
  fun _ _ _ _ _ hmem => UA.occurs_check_fails hmem

/-- C2 witness: `unify(x, f(x))` never returns a substitution. -/
theorem C2_witness :
    "x" ∈ UA.vars (.func "f" [.var "x"]) ∧
    UA.unify 5 (.var "x") (.func "f" [.var "x"]) ≠ some (some []) :=
  ⟨by decide, C2_occurs_check 5 "x" "f" [.var "x"] [] (by decide)⟩

/-- C3: on the grandparent knowledge base, the query
`grandparent(alice, charlie)` is Proved (the empty clause is derived) within
the default budget of 10000 iterations. -/
theorem C3_grandparent_proved :
    FOL.folResolutionF 30 FOL.exampleKB
      ⟨"grandparent", [.const "alice", .const "charlie"]⟩ 10000 = some true :=
  rfl

/-- C4: on the grandparent knowledge base, the query
`grandparent(alice, diana)` run with a budget of 100 steps returns the
not-proved result (Exhausted), never Proved. -/
theorem C4_diana_exhausted :
    FOL.folResolutionF 30 FOL.exampleKB
      ⟨"grandparent", [.const "alice", .const "diana"]⟩ 100 = some false :=
  rfl

/-- C5: tautology elimination — no resolvent returned by `resolve` contains
two literals with the same predicate name, opposite polarity, and identical
arguments, so no tautological resolvent ever reaches the clause store. -/
theorem C5_tautology_elimination :
    ∀ (F : Nat) (c1 c2 : FOL.Clause) (rs : List FOL.Clause),
      FOL.resolveF F c1 c2 = some rs →
      ∀ r ∈ rs, ∀ a ∈ r, ∀ b ∈ r,
        ¬(a.pred.name = b.pred.name ∧ a.neg ≠ b.neg ∧ a.pred.args = b.pred.args) :=
  fun _ _ _ _ h => FOL.resolveF_no_taut h

/-- C5 witness: resolving `{parent(alice,bob)}` with the grandparent rule
yields two resolvents, and the first one contains no complementary pair of
identical literals. -/
theorem C5_witness :
    FOL.resolveF 20
        (FOL.canonClause [⟨⟨"parent", [.const "alice", .const "bob"]⟩, false⟩])
        (FOL.canonClause [⟨⟨"parent", [.var "x", .var "y"]⟩, true⟩,
                          ⟨⟨"parent", [.var "y", .var "z"]⟩, true⟩,
                          ⟨⟨"grandparent", [.var "x", .var "z"]⟩, false⟩])
      = some
        [[⟨⟨"grandparent", [.const "alice", .var "z"]⟩, false⟩,
          ⟨⟨"parent", [.const "bob", .var "z"]⟩, true⟩],
         [⟨⟨"grandparent", [.var "x", .const "bob"]⟩, false⟩,
          ⟨⟨"parent", [.var "x", .const "alice"]⟩, true⟩]] ∧
    ¬((FOL.LitF.mk ⟨"grandparent", [.const "alice", .var "z"]⟩ false).pred.name =
        (FOL.LitF.mk ⟨"parent", [.const "bob", .var "z"]⟩ true).pred.name ∧
      (FOL.LitF.mk ⟨"grandparent", [.const "alice", .var "z"]⟩ false).neg ≠
        (FOL.LitF.mk ⟨"parent", [.const "bob", .var "z"]⟩ true).neg ∧
      (FOL.LitF.mk ⟨"grandparent", [.const "alice", .var "z"]⟩ false).pred.args =
        (FOL.LitF.mk ⟨"parent", [.const "bob", .var "z"]⟩ true).pred.args) :=
  ⟨rfl,
   C5_tautology_elimination 20
     (FOL.canonClause [⟨⟨"parent", [.const "alice", .const "bob"]⟩, false⟩])
     (FOL.canonClause [⟨⟨"parent", [.var "x", .var "y"]⟩, true⟩,
                       ⟨⟨"parent", [.var "y", .var "z"]⟩, true⟩,
                       ⟨⟨"grandparent", [.var "x", .var "z"]⟩, false⟩])
     [[⟨⟨"grandparent", [.const "alice", .var "z"]⟩, false⟩,
       ⟨⟨"parent", [.const "bob", .var "z"]⟩, true⟩],
      [⟨⟨"grandparent", [.var "x", .const "bob"]⟩, false⟩,
       ⟨⟨"parent", [.var "x", .const "alice"]⟩, true⟩]]
     rfl
     [⟨⟨"grandparent", [.const "alice", .var "z"]⟩, false⟩,
      ⟨⟨"parent", [.const "bob", .var "z"]⟩, true⟩]
     (by decide)
     ⟨⟨"grandparent", [.const "alice", .var "z"]⟩, false⟩ (by decide)
     ⟨⟨"parent", [.const "bob", .var "z"]⟩, true⟩ (by decide)⟩

/-- C6 counterexample: the unifier returns the substitution `{x ↦ x}` for
`unify_preds(P(x), P(x), {})`, and `apply_subst_term` on `x` under it never
terminates — application is not total on every substitution the core
produces. -/
theorem C6_counterexample :
    FOL.unifyPredsF 10 ⟨"P", [.var "x"]⟩ ⟨"P", [.var "x"]⟩ []
      = some (some [("x", FOL.FTerm.var "x")]) ∧
    FOL.applyTDiverges [("x", FOL.FTerm.var "x")] (.var "x") :=
  ⟨rfl, fun m => FOL.applyT_loop m _ "x" rfl⟩

/-- C6 (amended): substitution application terminates and returns the input
term unchanged whenever the term contains no variable bound under the
substitution — for `First_Order_Logic.apply_subst_term` at any positive
recursion depth, and for `Unification_Algorithm.apply_subst` at some depth.
(It is not total on the self-referential substitutions the unifier can
return, as the counterexample shows.) -/
theorem C6_apply_unchanged :
    (∀ (σ : FOL.SubstF) (t : FOL.FTerm) (m : Nat),
      (∀ y ∈ FOL.varsF t, FOL.lookupF σ y = none) →
      FOL.applyT (m + 1) σ t = some t) ∧
    (∀ (σ : UA.Subst) (t : UA.Term),
      (∀ y ∈ UA.vars t, UA.lookup σ y = none) →
      ∃ m, UA.applySubst m σ t = some t) := by
  constructor
  · intro σ t m h
    cases t with
    | var x => simp [FOL.applyT, h x (by simp [FOL.varsF])]
    | const c => simp [FOL.applyT]
  · intro σ t h
    exact UA.applySubst_fix t σ h

/-- C6 witness: an unbound variable and a compound over an unbound variable
are returned unchanged. -/
theorem C6_witness :
    FOL.applyT 1 [("x", FOL.FTerm.const "a")] (.var "z") = some (.var "z") ∧
    ∃ m, UA.applySubst m [("w", UA.Term.const "a")] (.func "f" [.var "z"])
      = some (.func "f" [.var "z"]) :=
  ⟨C6_apply_unchanged.1 [("x", FOL.FTerm.const "a")] (.var "z") 0 (by decide),
   C6_apply_unchanged.2 [("w", UA.Term.const "a")] (.func "f" [.var "z"]) (by decide)⟩

/-- C7 counterexample: `Unification.unify("x", "Apple", subs)` mutates the
caller's dictionary in place — after the call the caller's dict holds the
new binding, not the bindings it held before. -/
theorem C7_counterexample :
    PyU.pyUnify (.str "x") (.str "Apple") [] = (true, [("x", PyU.PyTerm.str "Apple")]) ∧
    ([("x", PyU.PyTerm.str "Apple")] : PyU.PyDict) ≠ [] :=
  ⟨rfl, by decide⟩

/-- C7 (amended): the `First_Order_Logic.py` and `Unification_Algorithm.py`
unifiers never mutate the caller's substitution dictionary (every write in
those sources targets a copy), but `Unification.unify` stores the new
binding directly into the caller's dictionary and runs the in-place
`apply_substitution` on it. -/
theorem C7_no_mutation :
    (∀ (n : Nat) (t1 t2 : FOL.FTerm) (σ : FOL.SubstF),
      (FOL.unifyTermsF_mut n t1 t2 σ).2 = σ) ∧
    (∀ (n : Nat) (p1 p2 : FOL.PredF) (σ : FOL.SubstF),
      (FOL.unifyPredsF_mut n p1 p2 σ).2 = σ) ∧
    (∀ (n : Nat) (t1 t2 : UA.Term) (σ : UA.Subst),
      (UA.unifyTerms_mut n t1 t2 σ).2 = σ) ∧
    (∀ (subs : PyU.PyDict) (s : String) (y : PyU.PyTerm),
      PyU.isPyLower s = true → PyU.PyTerm.str s ≠ y → PyU.pyIn s y = false →
      (PyU.pyUnify (.str s) y subs).2 =
        PyU.pyApplySubstitution (PyU.dset subs s y)) := by
  refine ⟨fun _ _ _ _ => rfl, fun _ _ _ _ => rfl, fun _ _ _ _ => rfl, ?_⟩
  intro subs s y hlow hne hni
  simp [PyU.pyUnify, PyU.isVarStr, PyU.varNameOf, hlow, hne, hni]

/-- C7 witness: a concrete successful binding writes into the caller's
dictionary. -/
theorem C7_witness :
    (FOL.unifyTermsF_mut 5 (.var "x") (.const "a") []).2 = [] ∧
    (PyU.pyUnify (.str "x") (.str "Riya") []).2 =
      PyU.pyApplySubstitution (PyU.dset [] "x" (.str "Riya")) :=
  ⟨C7_no_mutation.1 5 (.var "x") (.const "a") [],
   C7_no_mutation.2.2.2 [] "x" (.str "Riya") rfl (by decide) rfl⟩

/-- C8: applying a substitution twice yields the same result as applying it
once — for `First_Order_Logic.apply_subst_term` at the same depth, and for
`Unification_Algorithm.apply_subst` at some depth (both applications
dereference to a fixed point). -/
theorem C8_apply_idempotent :
    (∀ (m : Nat) (σ : FOL.SubstF) (t r : FOL.FTerm),
      FOL.applyT m σ t = some r → FOL.applyT m σ r = some r) ∧
    (∀ (m : Nat) (σ : UA.Subst) (t r : UA.Term),
      UA.applySubst m σ t = some r → ∃ j, UA.applySubst j σ r = some r) := by
  constructor
  · intro m σ t r h
    cases m with
    | zero => simp [FOL.applyT] at h
    | succ k =>
      have hf := FOL.applyT_final (k + 1) σ t r h
      cases r with
      | var y => simp [FOL.applyT, hf y (by simp [FOL.varsF])]
      | const c => simp [FOL.applyT]
  · intro m σ t r h
    exact UA.applySubst_idem h

/-- C8 witness: the chain `x ↦ a` dereferences to `a`, and applying again
returns `a` unchanged, in both substitution implementations. -/
theorem C8_witness :
    FOL.applyT 5 [("x", FOL.FTerm.const "a")] (FOL.FTerm.const "a")
      = some (FOL.FTerm.const "a") ∧
    ∃ j, UA.applySubst j [("x", UA.Term.const "a")] (UA.Term.const "a")
      = some (UA.Term.const "a") :=
  ⟨C8_apply_idempotent.1 5 [("x", FOL.FTerm.const "a")] (.var "x") (.const "a") rfl,
   C8_apply_idempotent.2 5 [("x", UA.Term.const "a")] (.var "x") (.const "a") rfl⟩

/-- C9 counterexample: `fol_resolution` returns a bare boolean.  Two queries
containing variables, `grandparent(alice, q)` and `grandparent(p, charlie)`,
are both Proved with different satisfying substitutions (`q ↦ charlie`
versus `p ↦ alice`), yet the caller receives the same value `True` in both
cases — no substitution accompanies the verdict. -/
theorem C9_counterexample :
    FOL.folResolutionF 30 FOL.exampleKB
      ⟨"grandparent", [.const "alice", .var "q"]⟩ 10000 = some true ∧
    FOL.folResolutionF 30 FOL.exampleKB
      ⟨"grandparent", [.var "p", .const "charlie"]⟩ 10000 = some true :=
  ⟨rfl, rfl⟩

/-- C9 (amended): the search reports only the boolean verdict — for a Proved
query containing variables the caller receives just `True`; distinct
variable queries with distinct answer substitutions get identical return
values. -/
theorem C9_verdict_only :
    FOL.folResolutionF 30 FOL.exampleKB
      ⟨"grandparent", [.const "alice", .var "q"]⟩ 10000 =
    FOL.folResolutionF 30 FOL.exampleKB
      ⟨"grandparent", [.var "p", .const "charlie"]⟩ 10000 :=
  have h1 : FOL.folResolutionF 30 FOL.exampleKB
      ⟨"grandparent", [.const "alice", .var "q"]⟩ 10000 = some true := rfl
  have h2 : FOL.folResolutionF 30 FOL.exampleKB
      ⟨"grandparent", [.var "p", .const "charlie"]⟩ 10000 = some true := rfl
  h1.trans h2.symm

/-- C10: budget semantics of the saturation loop — the loop never consumes
more iterations than the budget, and popping an already-processed pair still
consumes one unit of the budget (the counter is incremented before the
duplicate check). -/
theorem C10_budget_semantics :
    (∀ (F rem : Nat) (st : FOL.StateF), (FOL.folLoop F rem st).2 ≤ rem) ∧
    (∀ (F rem : Nat) (st : FOL.StateF) (c1 c2 : FOL.Clause)
      (rest : List (FOL.Clause × FOL.Clause)),
      st.agenda = (c1, c2) :: rest → (c1, c2) ∈ st.checked →
      FOL.folLoop F (rem + 1) st =
        FOL.tick (FOL.folLoop F rem { st with agenda := rest })) :=
  ⟨FOL.folLoop_count_le, FOL.folLoop_dup_step⟩

/-- C10 witness: a state whose agenda head was already processed consumes
one budget unit, and the consumed count stays within the budget. -/
theorem C10_witness :
    (FOL.folLoop 3 2 ⟨[], [], [([], [])], [([], [])]⟩).2 ≤ 2 ∧
    FOL.folLoop 3 (1 + 1) ⟨[], [], [([], [])], [([], [])]⟩ =
      FOL.tick (FOL.folLoop 3 1 ⟨[], [], [([], [])], []⟩) :=
  ⟨C10_budget_semantics.1 3 2 ⟨[], [], [([], [])], [([], [])]⟩,
   C10_budget_semantics.2 3 1 ⟨[], [], [([], [])], [([], [])]⟩ [] [] [] rfl (by decide)⟩
